import Mathlib

/-!
Parallel marching squares: a shallow embedding of `p_ms_algorithm.c`.

The C program keeps an image (a pixel buffer with its two dimensions), a grid of
bytes and sixteen contour templates behind pointers that all workers share.  The
embedding passes these explicitly:

* a pixel buffer is a total function from (signed) buffer indices to pixels, so an
  access outside the allocated `x * y` cells has a value instead of being undefined;
  the values outside the cells stand for whatever memory lies there, and two runs
  of the program are not taken to find the same values there;
* the grid `unsigned char **` is a function of row and column;
* C `int` dimensions and loop counters are natural numbers (they are never
  negative); every buffer index is computed as in the source and then read as an
  integer, so `image->x - 1` keeps its C meaning when `x = 0`;
* the `double` quotients of `thread_func` are taken as the exact integer quotient:
  for `t * n < 2 ^ 52` the rounded quotient truncates to `t * n / N`;
* `sample_bicubic` (from the helper library, floating point) is a parameter.
-/

namespace PMS

/-! ## Constants -/

def CONTOUR_CONFIG_COUNT : Nat := 16
def STEP : Nat := 8
def SIGMA : Nat := 200
def RESCALE_X : Nat := 2048
def RESCALE_Y : Nat := 2048

/-! ## Data model -/

/-- One pixel: three `unsigned char` channels. -/
structure ppm_pixel where
  red : Fin 256
  green : Fin 256
  blue : Fin 256
deriving DecidableEq

/-- An image: `x`, `y` and the pixel buffer `data`. -/
structure ppm_image where
  x : Nat
  y : Nat
  data : Int → ppm_pixel

/-- The per-worker record `thread_data` (the barrier handle is left out). -/
structure thread_data where
  thread_id : Nat
  thread_count : Nat
  image : ppm_image
  grid : Nat → Nat → Nat
  contour_map : Nat → ppm_image
  step_x : Nat
  step_y : Nat
  new_image : ppm_image

/-- The assignment `grid[i][j] = v`. -/
def grid_set (grid : Nat → Nat → Nat) (i j v : Nat) : Nat → Nat → Nat :=
  Function.update grid i (Function.update (grid i) j v)

/-- The byte `curr_color` of `sample_grid`, compared with `sigma`:
`(red + green + blue) / 3` stored in an `unsigned char`, then `0` when it is
greater than `sigma` and `1` otherwise. -/
def sample_value (sigma : Nat) (curr_pixel : ppm_pixel) : Nat :=
  let curr_color := (curr_pixel.red.val + curr_pixel.green.val + curr_pixel.blue.val) / 3 % 256
  if curr_color > sigma then 0 else 1

/-! ## `update_image` -/

/-- Lines 54-65: copy `contour` into `image` at origin `(x, y)`. The loop never
changes `image->y`, so the fold runs over the pixel buffer. -/
def update_image (image contour : ppm_image) (x y : Nat) : ppm_image :=
  { image with
    data := (List.range contour.x).foldl (fun d i =>
      (List.range contour.y).foldl (fun d j =>
        let contour_pixel_index : Nat := contour.x * i + j
        let image_pixel_index : Nat := (x + i) * image.y + y + j
        Function.update d (image_pixel_index : Int) (contour.data (contour_pixel_index : Int))) d)
      image.data }

/-! ## `sample_grid` -/

/-- Lines 71-116. The test `thread_id == thread_count - 1` is written
`thread_id + 1 = thread_count`, which is the same over the integers. -/
def sample_grid (data : thread_data) (sigma : Nat) (start_index end_index : Nat)
    (grid : Nat → Nat → Nat) : Nat → Nat → Nat :=
  let p := data.image.x / data.step_x
  let q := data.image.y / data.step_y
  let start_index := start_index / data.step_y
  let end_index := end_index / data.step_y
  let grid := (List.range p).foldl (fun g i =>
    (List.range' start_index (end_index - start_index)).foldl (fun g j =>
      let curr_pixel := data.image.data ((i * data.step_x * data.image.y + j * data.step_y : Nat) : Int)
      grid_set g i j (sample_value sigma curr_pixel)) g) grid
  let grid := grid_set grid p q 0
  if data.thread_id + 1 = data.thread_count then
    let grid := (List.range p).foldl (fun g i =>
      let curr_pixel := data.image.data (((i * data.step_x * data.image.y + data.image.x : Nat) : Int) - 1)
      grid_set g i q (sample_value sigma curr_pixel)) grid
    (List.range q).foldl (fun g j =>
      let curr_pixel := data.image.data (((data.image.x : Int) - 1) * (data.image.y : Int) + ((j * data.step_y : Nat) : Int))
      grid_set g p j (sample_value sigma curr_pixel)) grid
  else grid

/-! ## `march` -/

/-- The byte `k` of line 131: the sum is formed in `int` and stored in an
`unsigned char`. -/
def march_code (grid : Nat → Nat → Nat) (i j : Nat) : Nat :=
  (8 * grid i j + 4 * grid i (j + 1) + 2 * grid (i + 1) (j + 1) + 1 * grid (i + 1) j) % 256

/-- Lines 122-135. -/
def march (data : thread_data) (start end_ : Nat) : ppm_image :=
  let p := data.image.x / data.step_x
  let start := start / data.step_y
  let end_ := end_ / data.step_y
  (List.range p).foldl (fun img i =>
    (List.range' start (end_ - start)).foldl (fun img j =>
      let k := march_code data.grid i j
      update_image img (data.contour_map k) (i * data.step_x) (j * data.step_y)) img) data.image

/-! ## `rescale_image` -/

/-- Lines 156-172. `sample_bicubic image i xm j ym` stands for the helper
`sample_bicubic(image, (float)i / (float)xm, (float)j / (float)ym, sample)`. -/
def rescale_image (sample_bicubic : ppm_image → Nat → Int → Nat → Int → ppm_pixel)
    (data : thread_data) (start end_ : Nat) : ppm_image :=
  { data.new_image with
    data := (List.range data.new_image.x).foldl (fun d i =>
      (List.range' start (end_ - start)).foldl (fun d j =>
        Function.update d ((i * data.new_image.y + j : Nat) : Int)
          (sample_bicubic data.image i ((data.new_image.x : Int) - 1) j ((data.new_image.y : Int) - 1))) d)
      data.new_image.data }

/-! ## `thread_func` -/

/-- Line 184: the test that guards the rescale phase of a worker. -/
def thread_rescales (data : thread_data) : Bool :=
  decide (data.image.x > RESCALE_X) || decide (data.new_image.y > RESCALE_Y)

/-- Lines 177-186: the pair `(start_index, end_index)` a worker passes to
`sample_grid` and `march`. -/
def thread_range (data : thread_data) : Nat × Nat :=
  let n := data.image.y
  let start_index := data.thread_id * data.image.y / data.thread_count
  let end_index := min ((data.thread_id + 1) * data.image.y / data.thread_count) data.image.y
  let end_index := if data.thread_id + 1 = data.thread_count then n else end_index
  if thread_rescales data then
    (data.thread_id * data.new_image.y / data.thread_count,
      min ((data.thread_id + 1) * data.new_image.y / data.thread_count) data.new_image.y)
  else (start_index, end_index)

/-- Lines 184-190: the rescale phase of one worker. It returns the worker record
after the phase: the shared `new_image` buffer with this worker's columns filled
and `image` pointing at it, or the record unchanged when the test fails. -/
def thread_rescale_phase (sample_bicubic : ppm_image → Nat → Int → Nat → Int → ppm_pixel)
    (data : thread_data) : thread_data :=
  if thread_rescales data then
    let filled := rescale_image sample_bicubic data (thread_range data).1 (thread_range data).2
    { data with new_image := filled, image := filled }
  else data

/-! ## `main` -/

/-- Lines 215-227: `new_image` is the input image itself when it is within both
bounds, and a fresh `RESCALE_X` by `RESCALE_Y` buffer otherwise. -/
def main_new_image (image : ppm_image) (fresh : Int → ppm_pixel) : ppm_image :=
  if image.x ≤ RESCALE_X ∧ image.y ≤ RESCALE_Y then image
  else { x := RESCALE_X, y := RESCALE_Y, data := fresh }

/-- Lines 243-260: the grid allocated in `main` has `p + 1` rows of `q + 1` bytes. -/
def main_grid_dims (image : ppm_image) (fresh : Int → ppm_pixel) : Nat × Nat :=
  let new_image := main_new_image image fresh
  let p := new_image.x / STEP
  let q := new_image.y / STEP
  (p + 1, q + 1)

/-- Lines 262-271: the record `main` hands to worker `i`. -/
def main_thread_data (image : ppm_image) (fresh : Int → ppm_pixel)
    (contour_map : Nat → ppm_image) (grid : Nat → Nat → Nat) (THREAD_COUNT i : Nat) :
    thread_data :=
  { thread_id := i
    thread_count := THREAD_COUNT
    image := image
    grid := grid
    contour_map := contour_map
    step_x := STEP
    step_y := STEP
    new_image := main_new_image image fresh }

/-! ## A whole run

The workers of one run share the image buffers and the grid. The three barriers
of `thread_func` separate the phases, so a run is: every worker's rescale phase,
then every worker's `sample_grid`, then every worker's `march`. Within a phase
the workers are run one after another in a given order. -/

/-- What `main` starts from: the image read from the input file, the sixteen
templates, the thread count, the helper `sample_bicubic`, and the content of the
two buffers `main` allocates without initialising (`fresh` for `new_image->data`,
`grid` for the grid). -/
structure run_input where
  image : ppm_image
  contour_map : Nat → ppm_image
  THREAD_COUNT : Nat
  sample_bicubic : ppm_image → Nat → Int → Nat → Int → ppm_pixel
  fresh : Int → ppm_pixel
  grid : Nat → Nat → Nat

/-- The record of worker `t` as `main` creates it. -/
def run_thread_data (inp : run_input) (t : Nat) : thread_data :=
  main_thread_data inp.image inp.fresh inp.contour_map inp.grid inp.THREAD_COUNT t

/-- The shared `new_image` after the workers in `order` went through lines 184-188. -/
def rescale_phase (inp : run_input) (order : List Nat) : ppm_image :=
  order.foldl (fun ni t =>
    (thread_rescale_phase inp.sample_bicubic
      { run_thread_data inp t with new_image := ni }).new_image)
    (main_new_image inp.image inp.fresh)

/-- The record of worker `t` when it reaches line 191. -/
def thread_at_sampling (inp : run_input) (orderR : List Nat) (t : Nat) : thread_data :=
  let data := run_thread_data inp t
  if thread_rescales data then
    let ni := rescale_phase inp orderR
    { data with new_image := ni, image := ni }
  else data

/-- The image all workers sample and march on (`data->image` after line 190). -/
def working_image (inp : run_input) (orderR : List Nat) : ppm_image :=
  (thread_at_sampling inp orderR 0).image

/-- The shared grid after the workers in `orderS` ran line 191. -/
def sample_phase (inp : run_input) (orderR orderS : List Nat) : Nat → Nat → Nat :=
  orderS.foldl (fun g t =>
    let r := thread_range (run_thread_data inp t)
    sample_grid (thread_at_sampling inp orderR t) SIGMA r.1 r.2 g) inp.grid

/-- The working image after the workers in `orderM` ran line 193 on the sampled
grid: the image `main` hands to `write_ppm`. -/
def march_phase (inp : run_input) (orderR orderS orderM : List Nat) : ppm_image :=
  orderM.foldl (fun img t =>
    let r := thread_range (run_thread_data inp t)
    march { thread_at_sampling inp orderR t with
            image := img, grid := sample_phase inp orderR orderS } r.1 r.2)
    (working_image inp orderR)

/-! ## The memory accesses of the loops

The same loops as above, listing what they touch instead of doing it. -/

/-- The buffer indices `sample_grid` reads (lines 80, 94 and 105), in program order. -/
def sample_grid_reads (data : thread_data) (start_index end_index : Nat) : List Int :=
  let p := data.image.x / data.step_x
  let q := data.image.y / data.step_y
  let start_index := start_index / data.step_y
  let end_index := end_index / data.step_y
  let interior := (List.range p).flatMap (fun i =>
    (List.range' start_index (end_index - start_index)).map (fun j =>
      ((i * data.step_x * data.image.y + j * data.step_y : Nat) : Int)))
  if data.thread_id + 1 = data.thread_count then
    interior ++
      (List.range p).map (fun i =>
        ((i * data.step_x * data.image.y + data.image.x : Nat) : Int) - 1) ++
      (List.range q).map (fun j =>
        ((data.image.x : Int) - 1) * (data.image.y : Int) + ((j * data.step_y : Nat) : Int))
  else interior

/-- The grid cells `sample_grid` writes (lines 83-85, 89, 99-101 and 110-112), in
program order. -/
def sample_grid_writes (data : thread_data) (start_index end_index : Nat) : List (Nat × Nat) :=
  let p := data.image.x / data.step_x
  let q := data.image.y / data.step_y
  let start_index := start_index / data.step_y
  let end_index := end_index / data.step_y
  let interior := (List.range p).flatMap (fun i =>
    (List.range' start_index (end_index - start_index)).map (fun j => (i, j)))
  if data.thread_id + 1 = data.thread_count then
    interior ++ [(p, q)] ++ (List.range p).map (fun i => (i, q)) ++
      (List.range q).map (fun j => (p, j))
  else interior ++ [(p, q)]

/-- The template indices `update_image` reads (line 57). -/
def update_image_reads (contour : ppm_image) : List Int :=
  (List.range contour.x).flatMap (fun i =>
    (List.range contour.y).map (fun j => ((contour.x * i + j : Nat) : Int)))

/-- The image indices `update_image` writes (line 58). -/
def update_image_writes (image contour : ppm_image) (x y : Nat) : List Int :=
  (List.range contour.x).flatMap (fun i =>
    (List.range contour.y).map (fun j => (((x + i) * image.y + y + j : Nat) : Int)))

/-- The grid cells `march` reads (line 131). -/
def march_grid_reads (data : thread_data) (start end_ : Nat) : List (Nat × Nat) :=
  let p := data.image.x / data.step_x
  let start := start / data.step_y
  let end_ := end_ / data.step_y
  (List.range p).flatMap (fun i =>
    (List.range' start (end_ - start)).flatMap (fun j =>
      [(i, j), (i, j + 1), (i + 1, j + 1), (i + 1, j)]))

/-- The template accesses of `march`: the index `k` into `contour_map` paired
with every index `update_image` reads in that template. -/
def march_template_reads (data : thread_data) (start end_ : Nat) : List (Nat × Int) :=
  let p := data.image.x / data.step_x
  let start := start / data.step_y
  let end_ := end_ / data.step_y
  (List.range p).flatMap (fun i =>
    (List.range' start (end_ - start)).flatMap (fun j =>
      (update_image_reads (data.contour_map (march_code data.grid i j))).map (fun n =>
        (march_code data.grid i j, n))))

/-- The image indices `march` writes through `update_image`. -/
def march_writes (data : thread_data) (start end_ : Nat) : List Int :=
  let p := data.image.x / data.step_x
  let start := start / data.step_y
  let end_ := end_ / data.step_y
  (List.range p).flatMap (fun i =>
    (List.range' start (end_ - start)).flatMap (fun j =>
      update_image_writes data.image (data.contour_map (march_code data.grid i j))
        (i * data.step_x) (j * data.step_y)))

/-! ## Concrete inputs -/

def white : ppm_pixel := { red := 255, green := 255, blue := 255 }

def black : ppm_pixel := { red := 0, green := 0, blue := 0 }

/-- A `STEP` by `STEP` template whose pixel at index `n` has red channel `n + k`. -/
def numbered_template (k : Nat) : ppm_image :=
  { x := STEP, y := STEP,
    data := fun n => { red := Fin.ofNat (n.toNat + k), green := 0, blue := 0 } }

/-- A 16 by 16 image with dark even and light odd buffer cells, two workers. -/
def square_input : run_input :=
  { image := { x := 16, y := 16, data := fun n => if n % 2 = 0 then black else white }
    contour_map := numbered_template
    THREAD_COUNT := 2
    sample_bicubic := fun image _ _ _ _ => image.data 0
    fresh := fun _ => white
    grid := fun _ _ => 7 }

/-- Zeros and ones in a checkerboard. -/
def checker_grid : Nat → Nat → Nat := fun a b => (a + b) % 2

/-- An image with `x = 16` and `y = 4096`: `x` is within `RESCALE_X`, `y` exceeds
`RESCALE_Y`. One worker. -/
def tall_input : run_input :=
  { image := { x := 16, y := 4096, data := fun _ => white }
    contour_map := numbered_template
    THREAD_COUNT := 1
    sample_bicubic := fun image _ _ _ _ => image.data 0
    fresh := fun _ => white
    grid := fun _ _ => 7 }

/-- An image with `x = 8` and `y = 16`, white except for the last cell of its
first row of sixteen (index 15), which is black. One worker. -/
def wide_input : run_input :=
  { image := { x := 8, y := 16, data := fun n => if n = 15 then black else white }
    contour_map := numbered_template
    THREAD_COUNT := 1
    sample_bicubic := fun image _ _ _ _ => image.data 0
    fresh := fun _ => white
    grid := fun _ _ => 7 }

/-- A template with `x = 2` and `y = 3` whose pixel at index `n` has red channel `n`. -/
def oblong_template : ppm_image :=
  { x := 2, y := 3, data := fun n => { red := Fin.ofNat n.toNat, green := 0, blue := 0 } }

/-- A white image with `x = 2` and `y = 3`. -/
def oblong_image : ppm_image :=
  { x := 2, y := 3, data := fun _ => white }

/-- An image with `x = 72` and `y = 8`: the 576 cells of its buffer are white, and
what lies outside the buffer is black. One worker. -/
def slim_input : run_input :=
  { image := { x := 72, y := 8, data := fun n => if 0 ≤ n ∧ n < 576 then white else black }
    contour_map := numbered_template
    THREAD_COUNT := 1
    sample_bicubic := fun image _ _ _ _ => image.data 0
    fresh := fun _ => white
    grid := fun _ _ => 7 }

/-- A loop whose every step keeps an observation keeps it. -/
theorem foldl_frame {σ ι β : Type} (r : σ → β) (Inv : σ → Prop) (f : σ → ι → σ) :
    ∀ (l : List ι) (s : σ), Inv s →
      (∀ s e, e ∈ l → Inv s → Inv (f s e)) →
      (∀ s e, e ∈ l → Inv s → r (f s e) = r s) →
      r (l.foldl f s) = r s ∧ Inv (l.foldl f s) := by
  intro l
  induction l with
  | nil => intro s hs _ _; exact ⟨rfl, hs⟩
  | cons a l ih =>
    intro s hs hI hr
    have h1 := ih (f s a) (hI s a (List.mem_cons_self a l) hs)
      (fun s e he => hI s e (List.mem_cons_of_mem a he))
      (fun s e he => hr s e (List.mem_cons_of_mem a he))
    simp only [List.foldl_cons]
    exact ⟨h1.1.trans (hr s a (List.mem_cons_self a l) hs), h1.2⟩

/-- A loop in which the steps marked `W` set an observation to `v` and the
other steps keep it, and which has a marked step, ends with the observation `v`. -/
theorem foldl_written {σ ι β : Type} (r : σ → β) (Inv : σ → Prop) (f : σ → ι → σ)
    (W : ι → Prop) (v : β) :
    ∀ (l : List ι) (s : σ), Inv s →
      (∀ s e, e ∈ l → Inv s → Inv (f s e)) →
      (∀ s e, e ∈ l → Inv s → W e → r (f s e) = v) →
      (∀ s e, e ∈ l → Inv s → ¬ W e → r (f s e) = r s) →
      (∃ e ∈ l, W e) → r (l.foldl f s) = v := by
  intro l
  induction l with
  | nil => intro s _ _ _ _ hex; obtain ⟨e, he, _⟩ := hex; simp at he
  | cons a l ih =>
    intro s hs hI hW hN hex
    simp only [List.foldl_cons]
    have hs1 : Inv (f s a) := hI s a (List.mem_cons_self a l) hs
    have hI1 : ∀ s e, e ∈ l → Inv s → Inv (f s e) :=
      fun s e he => hI s e (List.mem_cons_of_mem a he)
    by_cases hl : ∃ e ∈ l, W e
    · exact ih (f s a) hs1 hI1 (fun s e he => hW s e (List.mem_cons_of_mem a he))
        (fun s e he => hN s e (List.mem_cons_of_mem a he)) hl
    · have hnone : ∀ e, e ∈ l → ¬ W e := fun e he hw => hl ⟨e, he, hw⟩
      have ha : W a := by
        obtain ⟨e, he, hw⟩ := hex
        rcases List.mem_cons.mp he with h | h
        · exact h ▸ hw
        · exact absurd hw (hnone e h)
      have h1 := (foldl_frame r Inv f l (f s a) hs1 hI1
        (fun s e he hs => hN s e (List.mem_cons_of_mem a he) hs (hnone e he))).1
      exact h1.trans (hW s a (List.mem_cons_self a l) hs ha)

theorem grid_set_apply (grid : Nat → Nat → Nat) (i j v a b : Nat) :
    grid_set grid i j v a b = if a = i ∧ b = j then v else grid a b := by
  unfold grid_set
  by_cases ha : a = i
  · subst ha
    by_cases hb : b = j
    · subst hb; simp
    · simp [Function.update_noteq hb, hb]
  · simp [Function.update_noteq ha, ha]

theorem mem_range'_iff (s e j : Nat) : j ∈ List.range' s (e - s) ↔ s ≤ j ∧ j < e := by
  rw [List.mem_range'_1]; omega

/-- A single loop that stores `V i` at `grid[ki i][kj i]`, where the stored value
is determined by the cell. -/
theorem foldl_grid_set_apply (l : List Nat) (ki kj : Nat → Nat) (V : Nat → Nat → Nat)
    (grid : Nat → Nat → Nat) (a b : Nat) :
    (l.foldl (fun g e => grid_set g (ki e) (kj e) (V (ki e) (kj e))) grid) a b =
      if (∃ e ∈ l, a = ki e ∧ b = kj e) then V a b else grid a b := by
  by_cases h : ∃ e ∈ l, a = ki e ∧ b = kj e
  · rw [if_pos h]
    refine foldl_written (fun g => g a b) (fun _ => True) _ (fun e => a = ki e ∧ b = kj e)
      (V a b) l grid trivial (fun _ _ _ _ => trivial) ?_ ?_ h
    · intro s e _ _ hw
      show grid_set s (ki e) (kj e) (V (ki e) (kj e)) a b = V a b
      rw [grid_set_apply, if_pos hw, hw.1, hw.2]
    · intro s e _ _ hw
      show grid_set s (ki e) (kj e) (V (ki e) (kj e)) a b = s a b
      rw [grid_set_apply, if_neg hw]
  · rw [if_neg h]
    refine (foldl_frame (fun g => g a b) (fun _ => True) _ l grid trivial
      (fun _ _ _ _ => trivial) ?_).1
    intro s e he _
    have hw : ¬ (a = ki e ∧ b = kj e) := fun hw => h ⟨e, he, hw⟩
    show grid_set s (ki e) (kj e) (V (ki e) (kj e)) a b = s a b
    rw [grid_set_apply, if_neg hw]

/-- The nested loop of lines 78-88 on one cell. -/
theorem foldl_foldl_grid_set_apply (l1 l2 : List Nat) (V : Nat → Nat → Nat)
    (grid : Nat → Nat → Nat) (a b : Nat) :
    (l1.foldl (fun g i => l2.foldl (fun g j => grid_set g i j (V i j)) g) grid) a b =
      if a ∈ l1 ∧ b ∈ l2 then V a b else grid a b := by
  have inner : ∀ (i : Nat) (g : Nat → Nat → Nat),
      (l2.foldl (fun g j => grid_set g i j (V i j)) g) a b =
        if a = i ∧ b ∈ l2 then V a b else g a b := by
    intro i g
    have h := foldl_grid_set_apply l2 (fun _ => i) (fun j => j) V g a b
    simp only at h
    rw [h]
    by_cases hc : a = i ∧ b ∈ l2
    · rw [if_pos hc, if_pos ⟨b, hc.2, hc.1, rfl⟩]
    · rw [if_neg hc, if_neg]
      rintro ⟨e, he, h1, h2⟩
      exact hc ⟨h1, h2 ▸ he⟩
  by_cases h : a ∈ l1 ∧ b ∈ l2
  · rw [if_pos h]
    refine foldl_written (fun g => g a b) (fun _ => True) _ (fun i => a = i)
      (V a b) l1 grid trivial (fun _ _ _ _ => trivial) ?_ ?_ ⟨a, h.1, rfl⟩
    · intro s e _ _ hw
      simp only [inner, if_pos (And.intro hw h.2)]
    · intro s e _ _ hw
      simp only [inner]
      rw [if_neg (fun hc => hw hc.1)]
  · rw [if_neg h]
    refine (foldl_frame (fun g => g a b) (fun _ => True) _ l1 grid trivial
      (fun _ _ _ _ => trivial) ?_).1
    intro s e he _
    simp only [inner]
    rw [if_neg]
    rintro ⟨h1, h2⟩
    exact h ⟨h1 ▸ he, h2⟩

/-! ## `sample_grid`, cell by cell -/

/-- What `sample_grid` leaves in `grid[a][b]`, following the order of its writes:
the two boundary loops of the last worker come last, before them `grid[p][q] = 0`,
before that the interior loop. -/
theorem sample_grid_apply (data : thread_data) (sigma start_index end_index : Nat)
    (grid : Nat → Nat → Nat) (a b : Nat) :
    sample_grid data sigma start_index end_index grid a b =
      if data.thread_id + 1 = data.thread_count ∧ a = data.image.x / data.step_x ∧
          b < data.image.y / data.step_y then
        sample_value sigma (data.image.data
          (((data.image.x : Int) - 1) * (data.image.y : Int) + ((b * data.step_y : Nat) : Int)))
      else if data.thread_id + 1 = data.thread_count ∧ a < data.image.x / data.step_x ∧
          b = data.image.y / data.step_y then
        sample_value sigma (data.image.data
          (((a * data.step_x * data.image.y + data.image.x : Nat) : Int) - 1))
      else if a = data.image.x / data.step_x ∧ b = data.image.y / data.step_y then 0
      else if a < data.image.x / data.step_x ∧ start_index / data.step_y ≤ b ∧
          b < end_index / data.step_y then
        sample_value sigma (data.image.data
          ((a * data.step_x * data.image.y + b * data.step_y : Nat) : Int))
      else grid a b := by
  have hint : ∀ g : Nat → Nat → Nat,
      ((List.range (data.image.x / data.step_x)).foldl (fun g i =>
        (List.range' (start_index / data.step_y)
          (end_index / data.step_y - start_index / data.step_y)).foldl (fun g j =>
            grid_set g i j (sample_value sigma (data.image.data
              ((i * data.step_x * data.image.y + j * data.step_y : Nat) : Int)))) g) g) a b =
        if a < data.image.x / data.step_x ∧ start_index / data.step_y ≤ b ∧
            b < end_index / data.step_y then
          sample_value sigma (data.image.data
            ((a * data.step_x * data.image.y + b * data.step_y : Nat) : Int))
        else g a b := by
    intro g
    have h := foldl_foldl_grid_set_apply (List.range (data.image.x / data.step_x))
      (List.range' (start_index / data.step_y)
        (end_index / data.step_y - start_index / data.step_y))
      (fun i j => sample_value sigma (data.image.data
        ((i * data.step_x * data.image.y + j * data.step_y : Nat) : Int))) g a b
    simp only [List.mem_range, mem_range'_iff] at h
    exact h
  have hcol : ∀ g : Nat → Nat → Nat,
      ((List.range (data.image.x / data.step_x)).foldl (fun g i =>
        grid_set g i (data.image.y / data.step_y) (sample_value sigma (data.image.data
          (((i * data.step_x * data.image.y + data.image.x : Nat) : Int) - 1)))) g) a b =
        if a < data.image.x / data.step_x ∧ b = data.image.y / data.step_y then
          sample_value sigma (data.image.data
            (((a * data.step_x * data.image.y + data.image.x : Nat) : Int) - 1))
        else g a b := by
    intro g
    have h := foldl_grid_set_apply (List.range (data.image.x / data.step_x))
      (fun i => i) (fun _ => data.image.y / data.step_y)
      (fun i _ => sample_value sigma (data.image.data
        (((i * data.step_x * data.image.y + data.image.x : Nat) : Int) - 1))) g a b
    simp only [List.mem_range] at h
    rw [h]
    by_cases hc : a < data.image.x / data.step_x ∧ b = data.image.y / data.step_y
    · rw [if_pos hc, if_pos ⟨a, hc.1, rfl, hc.2⟩]
    · rw [if_neg hc, if_neg]
      rintro ⟨e, he, h1, h2⟩
      exact hc ⟨h1 ▸ he, h2⟩
  have hrow : ∀ g : Nat → Nat → Nat,
      ((List.range (data.image.y / data.step_y)).foldl (fun g j =>
        grid_set g (data.image.x / data.step_x) j (sample_value sigma (data.image.data
          (((data.image.x : Int) - 1) * (data.image.y : Int) + ((j * data.step_y : Nat) : Int))))) g)
          a b =
        if a = data.image.x / data.step_x ∧ b < data.image.y / data.step_y then
          sample_value sigma (data.image.data
            (((data.image.x : Int) - 1) * (data.image.y : Int) + ((b * data.step_y : Nat) : Int)))
        else g a b := by
    intro g
    have h := foldl_grid_set_apply (List.range (data.image.y / data.step_y))
      (fun _ => data.image.x / data.step_x) (fun j => j)
      (fun _ j => sample_value sigma (data.image.data
        (((data.image.x : Int) - 1) * (data.image.y : Int) + ((j * data.step_y : Nat) : Int)))) g a b
    simp only [List.mem_range] at h
    rw [h]
    by_cases hc : a = data.image.x / data.step_x ∧ b < data.image.y / data.step_y
    · rw [if_pos hc, if_pos ⟨b, hc.2, hc.1, rfl⟩]
    · rw [if_neg hc, if_neg]
      rintro ⟨e, he, h1, h2⟩
      exact hc ⟨h1, h2 ▸ he⟩
  unfold sample_grid
  simp only []
  by_cases hlast : data.thread_id + 1 = data.thread_count
  · rw [if_pos hlast, hrow, hcol, grid_set_apply, hint]
    simp only [hlast, true_and]
  · rw [if_neg hlast, grid_set_apply, hint]
    simp only [hlast, false_and, if_false]

/-! ## The ranges of `thread_func` -/

/-- The dimension a worker partitions: `new_image->y` on the rescale path,
`image->y` otherwise. -/
theorem thread_range_fst (data : thread_data) :
    (thread_range data).1 =
      data.thread_id * (if thread_rescales data then data.new_image.y else data.image.y) /
        data.thread_count := by
  unfold thread_range
  by_cases h : thread_rescales data = true
  · simp [h]
  · simp [h]

theorem mul_div_le_of_le (t n N : Nat) (hN : 0 < N) (ht : t ≤ N) : t * n / N ≤ n := by
  calc t * n / N ≤ N * n / N := Nat.div_le_div_right (Nat.mul_le_mul_right n ht)
    _ = n := Nat.mul_div_cancel_left n hN

theorem thread_range_snd (data : thread_data) (hN : 0 < data.thread_count)
    (ht : data.thread_id < data.thread_count) :
    (thread_range data).2 =
      (data.thread_id + 1) * (if thread_rescales data then data.new_image.y else data.image.y) /
        data.thread_count := by
  unfold thread_range
  have h1 := mul_div_le_of_le (data.thread_id + 1) data.new_image.y data.thread_count hN ht
  have h2 := mul_div_le_of_le (data.thread_id + 1) data.image.y data.thread_count hN ht
  by_cases h : thread_rescales data = true
  · simp only [h, if_true]
    exact Nat.min_eq_left h1
  · simp only [h]
    by_cases hl : data.thread_id + 1 = data.thread_count
    · simp only [hl, if_true]
      exact (Nat.mul_div_cancel_left data.image.y hN).symm
    · simp only [hl, if_false]
      exact Nat.min_eq_left h2

/-- Consecutive quotients `t * n / N / step` cut `[0, n / step)` into `N` pieces:
every `j < n / step` lies in exactly one of them. -/
theorem column_partition (n N step j : Nat) (hN : 0 < N) (hj : j < n / step) :
    ∃! t, t < N ∧ t * n / N / step ≤ j ∧ j < (t + 1) * n / N / step := by
  have mono : ∀ t1 t2 : Nat, t1 ≤ t2 → t1 * n / N / step ≤ t2 * n / N / step := by
    intro t1 t2 h
    exact Nat.div_le_div_right (Nat.div_le_div_right (Nat.mul_le_mul_right n h))
  have hlast : ∃ t, j < (t + 1) * n / N / step := by
    refine ⟨N - 1, ?_⟩
    have : N - 1 + 1 = N := by omega
    rw [this, Nat.mul_div_cancel_left n hN]
    exact hj
  classical
  refine ⟨Nat.find hlast, ⟨?_, ?_, Nat.find_spec hlast⟩, ?_⟩
  · have h1 : Nat.find hlast ≤ N - 1 := Nat.find_min' hlast (by
      have : N - 1 + 1 = N := by omega
      rw [this, Nat.mul_div_cancel_left n hN]
      exact hj)
    omega
  · rcases Nat.eq_zero_or_pos (Nat.find hlast) with h0 | hpos
    · rw [h0]; simp
    · have hm := Nat.find_min hlast (Nat.sub_lt hpos Nat.one_pos)
      have : Nat.find hlast - 1 + 1 = Nat.find hlast := by omega
      rw [this] at hm
      omega
  · rintro t ⟨_, hlo, hhi⟩
    have hspec := Nat.find_spec hlast
    have hle : Nat.find hlast ≤ t := Nat.find_min' hlast hhi
    rcases Nat.lt_or_ge (Nat.find hlast) t with hlt | hge
    · have := mono (Nat.find hlast + 1) t hlt
      omega
    · omega

/-! ## The records of a run -/

/-- In a run the test of line 184 only looks at `image->x`: `new_image->y` is
never above `RESCALE_Y`. -/
theorem run_thread_rescales (inp : run_input) (t : Nat) :
    thread_rescales (run_thread_data inp t) = decide (RESCALE_X < inp.image.x) := by
  unfold thread_rescales run_thread_data main_thread_data main_new_image
  by_cases h : inp.image.x ≤ RESCALE_X ∧ inp.image.y ≤ RESCALE_Y
  · have h2 : ¬ inp.image.y > RESCALE_Y := by omega
    rw [if_pos h]
    simp [h2]
  · rw [if_neg h]
    simp

theorem rescale_phase_dims (inp : run_input) (order : List Nat) :
    (rescale_phase inp order).x = (main_new_image inp.image inp.fresh).x ∧
      (rescale_phase inp order).y = (main_new_image inp.image inp.fresh).y := by
  unfold rescale_phase
  have h := (foldl_frame (fun ni : ppm_image => (ni.x, ni.y)) (fun _ => True)
    (fun ni t => (thread_rescale_phase inp.sample_bicubic
      { run_thread_data inp t with new_image := ni }).new_image) order
    (main_new_image inp.image inp.fresh) trivial (fun _ _ _ _ => trivial) (by
      intro ni t _ _
      unfold thread_rescale_phase rescale_image
      by_cases hr : thread_rescales { run_thread_data inp t with new_image := ni } = true
      · simp [hr]
      · simp [hr])).1
  exact ⟨congrArg Prod.fst h, congrArg Prod.snd h⟩

theorem thread_at_sampling_image (inp : run_input) (orderR : List Nat) (t : Nat) :
    (thread_at_sampling inp orderR t).image = working_image inp orderR := by
  unfold working_image thread_at_sampling
  simp only [run_thread_rescales]
  by_cases h : RESCALE_X < inp.image.x
  · simp [h]
  · simp [h, run_thread_data, main_thread_data]

theorem thread_at_sampling_fields (inp : run_input) (orderR : List Nat) (t : Nat) :
    (thread_at_sampling inp orderR t).thread_id = t ∧
    (thread_at_sampling inp orderR t).thread_count = inp.THREAD_COUNT ∧
    (thread_at_sampling inp orderR t).step_x = STEP ∧
    (thread_at_sampling inp orderR t).step_y = STEP ∧
    (thread_at_sampling inp orderR t).contour_map = inp.contour_map := by
  unfold thread_at_sampling
  simp only []
  split <;> simp [run_thread_data, main_thread_data]

/-- The working image of a run: the rescaled buffer when `image->x` exceeds
`RESCALE_X`, the input image otherwise. -/
theorem working_image_eq (inp : run_input) (orderR : List Nat) :
    working_image inp orderR =
      if RESCALE_X < inp.image.x then rescale_phase inp orderR else inp.image := by
  unfold working_image thread_at_sampling
  simp only [run_thread_rescales]
  by_cases h : RESCALE_X < inp.image.x
  · simp [h]
  · simp [h, run_thread_data, main_thread_data]

theorem working_image_dims (inp : run_input) (orderR : List Nat) :
    (working_image inp orderR).x = (if RESCALE_X < inp.image.x then RESCALE_X else inp.image.x) ∧
      (working_image inp orderR).y =
        (if RESCALE_X < inp.image.x then RESCALE_Y else inp.image.y) := by
  rw [working_image_eq]
  by_cases h : RESCALE_X < inp.image.x
  · have hn : ¬ (inp.image.x ≤ RESCALE_X ∧ inp.image.y ≤ RESCALE_Y) := by omega
    simp only [h, if_true, rescale_phase_dims]
    simp [main_new_image, hn]
  · simp [h]

/-- The dimension the workers of a run partition is the `y` of the working image. -/
theorem run_partitioned_dim (inp : run_input) (orderR : List Nat) (t : Nat) :
    (if thread_rescales (run_thread_data inp t) then (run_thread_data inp t).new_image.y
      else (run_thread_data inp t).image.y) = (working_image inp orderR).y := by
  rw [run_thread_rescales, (working_image_dims inp orderR).2]
  by_cases h : RESCALE_X < inp.image.x
  · have hn : ¬ (inp.image.x ≤ RESCALE_X ∧ inp.image.y ≤ RESCALE_Y) := by omega
    simp [h, run_thread_data, main_thread_data, main_new_image, hn]
  · simp [h, run_thread_data, main_thread_data]

theorem run_range_fst (inp : run_input) (orderR : List Nat) (t : Nat) :
    (thread_range (run_thread_data inp t)).1 =
      t * (working_image inp orderR).y / inp.THREAD_COUNT := by
  rw [thread_range_fst, run_partitioned_dim inp orderR t]
  rfl

theorem run_range_snd (inp : run_input) (orderR : List Nat) (t : Nat)
    (ht : t < inp.THREAD_COUNT) :
    (thread_range (run_thread_data inp t)).2 =
      (t + 1) * (working_image inp orderR).y / inp.THREAD_COUNT := by
  have hN : 0 < (run_thread_data inp t).thread_count := Nat.lt_of_le_of_lt (Nat.zero_le _) ht
  rw [thread_range_snd (run_thread_data inp t) hN ht, run_partitioned_dim inp orderR t]
  rfl

/-! ## The sampling phase, cell by cell -/

/-- One worker's `sample_grid` of a run on one cell. -/
theorem run_sample_grid_apply (inp : run_input) (orderR : List Nat) (t : Nat)
    (ht : t < inp.THREAD_COUNT) (g : Nat → Nat → Nat) (a b : Nat) :
    sample_grid (thread_at_sampling inp orderR t) SIGMA
        (thread_range (run_thread_data inp t)).1 (thread_range (run_thread_data inp t)).2 g a b =
      if t + 1 = inp.THREAD_COUNT ∧ a = (working_image inp orderR).x / STEP ∧
          b < (working_image inp orderR).y / STEP then
        sample_value SIGMA ((working_image inp orderR).data
          ((((working_image inp orderR).x : Int) - 1) * ((working_image inp orderR).y : Int) +
            ((b * STEP : Nat) : Int)))
      else if t + 1 = inp.THREAD_COUNT ∧ a < (working_image inp orderR).x / STEP ∧
          b = (working_image inp orderR).y / STEP then
        sample_value SIGMA ((working_image inp orderR).data
          (((a * STEP * (working_image inp orderR).y + (working_image inp orderR).x : Nat) : Int) - 1))
      else if a = (working_image inp orderR).x / STEP ∧
          b = (working_image inp orderR).y / STEP then 0
      else if a < (working_image inp orderR).x / STEP ∧
          t * (working_image inp orderR).y / inp.THREAD_COUNT / STEP ≤ b ∧
          b < (t + 1) * (working_image inp orderR).y / inp.THREAD_COUNT / STEP then
        sample_value SIGMA ((working_image inp orderR).data
          ((a * STEP * (working_image inp orderR).y + b * STEP : Nat) : Int))
      else g a b := by
  obtain ⟨h1, h2, h3, h4, _⟩ := thread_at_sampling_fields inp orderR t
  rw [sample_grid_apply, thread_at_sampling_image, h1, h2, h3, h4,
    run_range_fst inp orderR t, run_range_snd inp orderR t ht]

/-- The grid after the sampling phase, whatever the number of workers and the
order in which they ran: every worker below `THREAD_COUNT` ran at least once. -/
theorem sample_phase_apply (inp : run_input) (orderR orderS : List Nat)
    (hN : 0 < inp.THREAD_COUNT) (hin : ∀ t, t ∈ orderS → t < inp.THREAD_COUNT)
    (hall : ∀ t, t < inp.THREAD_COUNT → t ∈ orderS) (a b : Nat) :
    sample_phase inp orderR orderS a b =
      if a = (working_image inp orderR).x / STEP ∧ b < (working_image inp orderR).y / STEP then
        sample_value SIGMA ((working_image inp orderR).data
          ((((working_image inp orderR).x : Int) - 1) * ((working_image inp orderR).y : Int) +
            ((b * STEP : Nat) : Int)))
      else if a < (working_image inp orderR).x / STEP ∧
          b = (working_image inp orderR).y / STEP then
        sample_value SIGMA ((working_image inp orderR).data
          (((a * STEP * (working_image inp orderR).y + (working_image inp orderR).x : Nat) : Int) - 1))
      else if a = (working_image inp orderR).x / STEP ∧
          b = (working_image inp orderR).y / STEP then 0
      else if a < (working_image inp orderR).x / STEP ∧
          b < (working_image inp orderR).y / STEP then
        sample_value SIGMA ((working_image inp orderR).data
          ((a * STEP * (working_image inp orderR).y + b * STEP : Nat) : Int))
      else inp.grid a b := by
  have hend : ∀ t, t < inp.THREAD_COUNT →
      (t + 1) * (working_image inp orderR).y / inp.THREAD_COUNT / STEP ≤
        (working_image inp orderR).y / STEP := by
    intro t ht
    exact Nat.div_le_div_right (mul_div_le_of_le (t + 1) _ _ hN ht)
  have hlastmem : inp.THREAD_COUNT - 1 ∈ orderS := hall _ (by omega)
  unfold sample_phase
  by_cases hgrid : a ≤ (working_image inp orderR).x / STEP ∧
      b ≤ (working_image inp orderR).y / STEP
  · refine foldl_written (fun g : Nat → Nat → Nat => g a b) (fun _ => True) _
      (fun t => (t + 1 = inp.THREAD_COUNT ∧
          (a = (working_image inp orderR).x / STEP ∨ b = (working_image inp orderR).y / STEP)) ∨
        (a = (working_image inp orderR).x / STEP ∧ b = (working_image inp orderR).y / STEP) ∨
        (a < (working_image inp orderR).x / STEP ∧
          t * (working_image inp orderR).y / inp.THREAD_COUNT / STEP ≤ b ∧
          b < (t + 1) * (working_image inp orderR).y / inp.THREAD_COUNT / STEP))
      _ orderS inp.grid trivial (fun _ _ _ _ => trivial) ?_ ?_ ?_
    · intro g t ht _ hw
      have he := hend t (hin t ht)
      show sample_grid _ _ _ _ g a b = _
      rw [run_sample_grid_apply inp orderR t (hin t ht)]
      split_ifs <;> first | rfl | (exfalso; omega)
    · intro g t ht _ hw
      have he := hend t (hin t ht)
      show sample_grid _ _ _ _ g a b = _
      rw [run_sample_grid_apply inp orderR t (hin t ht)]
      split_ifs <;> first | rfl | (exfalso; omega)
    · by_cases hb : a = (working_image inp orderR).x / STEP ∨
          b = (working_image inp orderR).y / STEP
      · exact ⟨inp.THREAD_COUNT - 1, hlastmem, Or.inl ⟨by omega, hb⟩⟩
      · have hb' : b < (working_image inp orderR).y / STEP := by omega
        obtain ⟨t, ⟨ht, hlo, hhi⟩, _⟩ :=
          column_partition (working_image inp orderR).y inp.THREAD_COUNT STEP b hN hb'
        exact ⟨t, hall t ht, Or.inr (Or.inr ⟨by omega, hlo, hhi⟩)⟩
  · have hfr := (foldl_frame (fun g : Nat → Nat → Nat => g a b) (fun _ => True)
      (fun g t => sample_grid (thread_at_sampling inp orderR t) SIGMA
        (thread_range (run_thread_data inp t)).1 (thread_range (run_thread_data inp t)).2 g)
      orderS inp.grid trivial (fun _ _ _ _ => trivial) (by
        intro g t ht _
        have he := hend t (hin t ht)
        show sample_grid _ _ _ _ g a b = _
        rw [run_sample_grid_apply inp orderR t (hin t ht)]
        split_ifs <;> first | rfl | (exfalso; omega))).1
    refine hfr.trans ?_
    split_ifs <;> first | rfl | (exfalso; omega)

/-! ## `update_image`, pixel by pixel -/

/-- A buffer index determines its row and column. -/
theorem row_col_unique (Y r c r' c' : Nat) (hc : c < Y) (hc' : c' < Y)
    (h : r * Y + c = r' * Y + c') : r = r' ∧ c = c' := by
  rcases Nat.lt_trichotomy r r' with hlt | heq | hgt
  · have h1 : (r + 1) * Y ≤ r' * Y := Nat.mul_le_mul_right Y hlt
    rw [Nat.add_mul, Nat.one_mul] at h1
    omega
  · subst heq
    exact ⟨rfl, by omega⟩
  · have h1 : (r' + 1) * Y ≤ r * Y := Nat.mul_le_mul_right Y hgt
    rw [Nat.add_mul, Nat.one_mul] at h1
    omega

theorem update_image_x (image contour : ppm_image) (x y : Nat) :
    (update_image image contour x y).x = image.x := rfl

theorem update_image_y (image contour : ppm_image) (x y : Nat) :
    (update_image image contour x y).y = image.y := rfl

/-- A pixel outside the stamped block keeps its value. -/
theorem update_image_data_frame (image contour : ppm_image) (x y : Nat) (k : Int)
    (hk : ∀ a b, a < contour.x → b < contour.y →
      k ≠ (((x + a) * image.y + y + b : Nat) : Int)) :
    (update_image image contour x y).data k = image.data k := by
  unfold update_image
  simp only []
  refine (foldl_frame (fun d : Int → ppm_pixel => d k) (fun _ => True) _
    (List.range contour.x) image.data trivial (fun _ _ _ _ => trivial) ?_).1
  intro d i hi _
  refine (foldl_frame (fun d : Int → ppm_pixel => d k) (fun _ => True) _
    (List.range contour.y) d trivial (fun _ _ _ _ => trivial) ?_).1
  intro d' j hj _
  exact Function.update_noteq (hk i j (List.mem_range.mp hi) (List.mem_range.mp hj)) _ _

/-- The pixel the loop stores at offset `(a, b)` of the block: the template
entry at index `contour.x * a + b`. -/
theorem update_image_data_written (image contour : ppm_image) (x y a b : Nat)
    (ha : a < contour.x) (hb : b < contour.y) (hfit : y + contour.y ≤ image.y) :
    (update_image image contour x y).data (((x + a) * image.y + y + b : Nat) : Int) =
      contour.data ((contour.x * a + b : Nat) : Int) := by
  unfold update_image
  simp only []
  refine foldl_written (fun d : Int → ppm_pixel => d (((x + a) * image.y + y + b : Nat) : Int))
    (fun _ => True) _ (fun i => i = a) _ (List.range contour.x) image.data trivial
    (fun _ _ _ _ => trivial) ?_ ?_ ⟨a, List.mem_range.mpr ha, rfl⟩
  · intro d i _ _ hi
    subst hi
    refine foldl_written (fun d : Int → ppm_pixel => d (((x + i) * image.y + y + b : Nat) : Int))
      (fun _ => True) _ (fun j => j = b) _ (List.range contour.y) d trivial
      (fun _ _ _ _ => trivial) ?_ ?_ ⟨b, List.mem_range.mpr hb, rfl⟩
    · intro d' j _ _ hj
      subst hj
      exact Function.update_same _ _ _
    · intro d' j _ _ hj
      refine Function.update_noteq ?_ _ _
      intro h
      have h' : (x + i) * image.y + y + b = (x + i) * image.y + y + j := Int.ofNat_inj.mp h
      exact hj (by omega)
  · intro d i _ _ hi
    refine (foldl_frame (fun d : Int → ppm_pixel => d (((x + a) * image.y + y + b : Nat) : Int))
      (fun _ => True) _ (List.range contour.y) d trivial (fun _ _ _ _ => trivial) ?_).1
    intro d' j hj _
    refine Function.update_noteq ?_ _ _
    intro h
    have h' : (x + a) * image.y + y + b = (x + i) * image.y + y + j := Int.ofNat_inj.mp h
    have hj' := List.mem_range.mp hj
    have := row_col_unique image.y (x + a) (y + b) (x + i) (y + j) (by omega) (by omega) (by omega)
    exact hi (by omega)

/-! ## `march`, pixel by pixel -/

/-- Two stamped blocks that share a buffer index are the same block, and the
index is the same offset in it. -/
theorem block_unique (sx sy Y i j a b i' j' a' b' : Nat)
    (ha : a < sx) (hb : b < sy) (ha' : a' < sx) (hb' : b' < sy)
    (hj : j * sy + sy ≤ Y) (hj' : j' * sy + sy ≤ Y)
    (h : (i * sx + a) * Y + j * sy + b = (i' * sx + a') * Y + j' * sy + b') :
    i = i' ∧ j = j' ∧ a = a' ∧ b = b' := by
  have h1 := row_col_unique Y (i * sx + a) (j * sy + b) (i' * sx + a') (j' * sy + b')
    (by omega) (by omega) (by omega)
  have h2 := row_col_unique sx i a i' a' ha ha' h1.1
  have h3 := row_col_unique sy j b j' b' hb hb' h1.2
  exact ⟨h2.1, h3.1, h2.2, h3.2⟩

theorem column_fits (sy Y j e : Nat) (hj : j < e / sy) (he : e / sy ≤ Y / sy) :
    j * sy + sy ≤ Y := by
  have h1 : (j + 1) * sy ≤ Y / sy * sy := Nat.mul_le_mul_right sy (by omega)
  have h2 : Y / sy * sy ≤ Y := Nat.div_mul_le_self Y sy
  rw [Nat.add_mul, Nat.one_mul] at h1
  omega

/-- One row of cells of `march` keeps the dimensions of the image. -/
theorem march_row_dims (data : thread_data) (i : Nat) (l : List Nat) (img : ppm_image) :
    (l.foldl (fun img j =>
      update_image img (data.contour_map (march_code data.grid i j))
        (i * data.step_x) (j * data.step_y)) img).x = img.x ∧
    (l.foldl (fun img j =>
      update_image img (data.contour_map (march_code data.grid i j))
        (i * data.step_x) (j * data.step_y)) img).y = img.y := by
  have h := (foldl_frame (fun img : ppm_image => (img.x, img.y)) (fun _ => True)
    (fun img j => update_image img (data.contour_map (march_code data.grid i j))
      (i * data.step_x) (j * data.step_y)) l img trivial (fun _ _ _ _ => trivial) (by
      intro img j _ _
      rfl)).1
  exact ⟨congrArg Prod.fst h, congrArg Prod.snd h⟩

/-- `march` never changes the dimensions of the image. -/
theorem march_dims (data : thread_data) (start end_ : Nat) :
    (march data start end_).x = data.image.x ∧ (march data start end_).y = data.image.y := by
  unfold march
  simp only []
  have h := (foldl_frame (fun img : ppm_image => (img.x, img.y)) (fun _ => True)
    (fun img i => (List.range' (start / data.step_y)
      (end_ / data.step_y - start / data.step_y)).foldl (fun img j =>
        update_image img (data.contour_map (march_code data.grid i j))
          (i * data.step_x) (j * data.step_y)) img)
    (List.range (data.image.x / data.step_x)) data.image trivial (fun _ _ _ _ => trivial) (by
      intro img i _ _
      have hr := march_row_dims data i (List.range' (start / data.step_y)
        (end_ / data.step_y - start / data.step_y)) img
      exact Prod.ext hr.1 hr.2)).1
  exact ⟨congrArg Prod.fst h, congrArg Prod.snd h⟩

/-- A pixel outside every block of the worker's cells keeps its value. -/
theorem march_data_frame (data : thread_data) (start end_ : Nat) (k : Int)
    (htemp : ∀ i j, i < data.image.x / data.step_x → start / data.step_y ≤ j →
      j < end_ / data.step_y →
      (data.contour_map (march_code data.grid i j)).x = data.step_x ∧
      (data.contour_map (march_code data.grid i j)).y = data.step_y)
    (hk : ∀ i j a b, i < data.image.x / data.step_x → start / data.step_y ≤ j →
      j < end_ / data.step_y → a < data.step_x → b < data.step_y →
      k ≠ (((i * data.step_x + a) * data.image.y + j * data.step_y + b : Nat) : Int)) :
    (march data start end_).data k = data.image.data k := by
  unfold march
  simp only []
  refine (foldl_frame (fun img : ppm_image => img.data k)
    (fun img => img.y = data.image.y) _
    (List.range (data.image.x / data.step_x)) data.image rfl ?_ ?_).1
  · intro img i _ himg
    exact (march_row_dims data i _ img).2.trans himg
  · intro img i hi himg
    refine (foldl_frame (fun img : ppm_image => img.data k)
      (fun img => img.y = data.image.y) _ _ img himg ?_ ?_).1
    · intro _ _ _ h
      exact h
    intro img' j hj himg'
    have hi' := List.mem_range.mp hi
    have hj' := (mem_range'_iff _ _ _).mp hj
    obtain ⟨hx, hy⟩ := htemp i j hi' hj'.1 hj'.2
    refine update_image_data_frame img' _ _ _ k ?_
    intro a b ha hb
    rw [himg']
    exact hk i j a b hi' hj'.1 hj'.2 (hx ▸ ha) (hy ▸ hb)

/-- The pixel at offset `(a, b)` of the block of cell `(i, j)` after `march`. -/
theorem march_data_written (data : thread_data) (start end_ : Nat) (i j a b : Nat)
    (htemp : ∀ i j, i < data.image.x / data.step_x → start / data.step_y ≤ j →
      j < end_ / data.step_y →
      (data.contour_map (march_code data.grid i j)).x = data.step_x ∧
      (data.contour_map (march_code data.grid i j)).y = data.step_y)
    (hfit : end_ / data.step_y ≤ data.image.y / data.step_y)
    (hi : i < data.image.x / data.step_x) (hjs : start / data.step_y ≤ j)
    (hje : j < end_ / data.step_y) (ha : a < data.step_x) (hb : b < data.step_y) :
    (march data start end_).data
        (((i * data.step_x + a) * data.image.y + j * data.step_y + b : Nat) : Int) =
      (data.contour_map (march_code data.grid i j)).data ((data.step_x * a + b : Nat) : Int) := by
  have hpres : ∀ (i' : Nat) (img : ppm_image), img.y = data.image.y →
      ((List.range' (start / data.step_y)
        (end_ / data.step_y - start / data.step_y)).foldl (fun img j =>
          update_image img (data.contour_map (march_code data.grid i' j))
            (i' * data.step_x) (j * data.step_y)) img).y = data.image.y := by
    intro i' img himg
    exact (march_row_dims data i' _ img).2.trans himg
  have hother : ∀ (i' j' : Nat) (img : ppm_image), img.y = data.image.y →
      i' < data.image.x / data.step_x → start / data.step_y ≤ j' → j' < end_ / data.step_y →
      ¬ (i' = i ∧ j' = j) →
      (update_image img (data.contour_map (march_code data.grid i' j'))
        (i' * data.step_x) (j' * data.step_y)).data
          (((i * data.step_x + a) * data.image.y + j * data.step_y + b : Nat) : Int) =
        img.data (((i * data.step_x + a) * data.image.y + j * data.step_y + b : Nat) : Int) := by
    intro i' j' img himg hi' hjs' hje' hne
    obtain ⟨hx, hy⟩ := htemp i' j' hi' hjs' hje'
    refine update_image_data_frame img _ _ _ _ ?_
    intro a' b' ha' hb' h
    rw [himg] at h
    have h' := Int.ofNat_inj.mp h
    have := block_unique data.step_x data.step_y data.image.y i j a b i' j' a' b' ha hb
      (hx ▸ ha') (hy ▸ hb') (column_fits _ _ _ _ hje hfit) (column_fits _ _ _ _ hje' hfit) h'
    exact hne ⟨this.1.symm, this.2.1.symm⟩
  unfold march
  simp only []
  refine foldl_written (fun img : ppm_image => img.data
      (((i * data.step_x + a) * data.image.y + j * data.step_y + b : Nat) : Int))
    (fun img => img.y = data.image.y) _ (fun i' => i' = i) _
    (List.range (data.image.x / data.step_x)) data.image rfl ?_ ?_ ?_
    ⟨i, List.mem_range.mpr hi, rfl⟩
  · intro img i' _ himg
    exact hpres i' img himg
  · intro img i' _ himg hi'
    subst hi'
    refine foldl_written (fun img : ppm_image => img.data
        (((i' * data.step_x + a) * data.image.y + j * data.step_y + b : Nat) : Int))
      (fun img => img.y = data.image.y) _ (fun j' => j' = j) _ _ img himg
      ?_ ?_ ?_ ⟨j, (mem_range'_iff _ _ _).mpr ⟨hjs, hje⟩, rfl⟩
    · intro _ _ _ h
      exact h
    · intro img' j' _ himg' hj'
      subst hj'
      obtain ⟨hx, hy⟩ := htemp i' j' hi hjs hje
      have hw := update_image_data_written img'
        (data.contour_map (march_code data.grid i' j')) (i' * data.step_x) (j' * data.step_y)
        a b (hx ▸ ha) (hy ▸ hb) (by
          rw [himg', hy]
          exact column_fits _ _ _ _ hje hfit)
      rw [himg', hx] at hw
      exact hw
    · intro img' j' hj' himg' hne
      have hj2 := (mem_range'_iff _ _ _).mp hj'
      exact hother i' j' img' himg' hi hj2.1 hj2.2 (fun h => hne h.2)
  · intro img i' hi' himg hne
    refine (foldl_frame (fun img : ppm_image => img.data
        (((i * data.step_x + a) * data.image.y + j * data.step_y + b : Nat) : Int))
      (fun img => img.y = data.image.y) _ _ img himg ?_ ?_).1
    · intro _ _ _ h
      exact h
    intro img' j' hj' himg'
    have hj2 := (mem_range'_iff _ _ _).mp hj'
    exact hother i' j' img' himg' (List.mem_range.mp hi') hj2.1 hj2.2 (fun h => hne h.1)

/-! ## The marching phase, pixel by pixel -/

/-- One worker's `march` of a run on a pixel of one of its blocks. -/
theorem run_march_written (inp : run_input) (orderR : List Nat) (t : Nat)
    (ht : t < inp.THREAD_COUNT) (G : Nat → Nat → Nat) (img : ppm_image)
    (hx : img.x = (working_image inp orderR).x) (hy : img.y = (working_image inp orderR).y)
    (htemp : ∀ i j, i < (working_image inp orderR).x / STEP →
      j < (working_image inp orderR).y / STEP →
      (inp.contour_map (march_code G i j)).x = STEP ∧
      (inp.contour_map (march_code G i j)).y = STEP)
    (i j a b : Nat) (hi : i < (working_image inp orderR).x / STEP)
    (hjs : t * (working_image inp orderR).y / inp.THREAD_COUNT / STEP ≤ j)
    (hje : j < (t + 1) * (working_image inp orderR).y / inp.THREAD_COUNT / STEP)
    (ha : a < STEP) (hb : b < STEP) :
    (march { thread_at_sampling inp orderR t with image := img, grid := G }
        (thread_range (run_thread_data inp t)).1 (thread_range (run_thread_data inp t)).2).data
        (((i * STEP + a) * (working_image inp orderR).y + j * STEP + b : Nat) : Int) =
      (inp.contour_map (march_code G i j)).data ((STEP * a + b : Nat) : Int) := by
  obtain ⟨_, _, h3, h4, h5⟩ := thread_at_sampling_fields inp orderR t
  have hN : 0 < inp.THREAD_COUNT := by omega
  have hend : (t + 1) * (working_image inp orderR).y / inp.THREAD_COUNT / STEP ≤
      (working_image inp orderR).y / STEP :=
    Nat.div_le_div_right (mul_div_le_of_le (t + 1) _ _ hN ht)
  have h := march_data_written
    { thread_at_sampling inp orderR t with image := img, grid := G }
    (thread_range (run_thread_data inp t)).1 (thread_range (run_thread_data inp t)).2 i j a b
  simp only [h3, h4, h5, hx, hy, run_range_fst inp orderR t, run_range_snd inp orderR t ht] at h ⊢
  exact h (fun i' j' hi' _ hj' => htemp i' j' hi' (by omega)) hend hi hjs hje ha hb

/-- One worker's `march` of a run on a pixel outside its blocks. -/
theorem run_march_frame (inp : run_input) (orderR : List Nat) (t : Nat)
    (ht : t < inp.THREAD_COUNT) (G : Nat → Nat → Nat) (img : ppm_image)
    (hx : img.x = (working_image inp orderR).x) (hy : img.y = (working_image inp orderR).y)
    (htemp : ∀ i j, i < (working_image inp orderR).x / STEP →
      j < (working_image inp orderR).y / STEP →
      (inp.contour_map (march_code G i j)).x = STEP ∧
      (inp.contour_map (march_code G i j)).y = STEP)
    (k : Int)
    (hk : ∀ i j a b, i < (working_image inp orderR).x / STEP →
      t * (working_image inp orderR).y / inp.THREAD_COUNT / STEP ≤ j →
      j < (t + 1) * (working_image inp orderR).y / inp.THREAD_COUNT / STEP →
      a < STEP → b < STEP →
      k ≠ (((i * STEP + a) * (working_image inp orderR).y + j * STEP + b : Nat) : Int)) :
    (march { thread_at_sampling inp orderR t with image := img, grid := G }
        (thread_range (run_thread_data inp t)).1 (thread_range (run_thread_data inp t)).2).data k =
      img.data k := by
  obtain ⟨_, _, h3, h4, h5⟩ := thread_at_sampling_fields inp orderR t
  have hN : 0 < inp.THREAD_COUNT := by omega
  have hend : (t + 1) * (working_image inp orderR).y / inp.THREAD_COUNT / STEP ≤
      (working_image inp orderR).y / STEP :=
    Nat.div_le_div_right (mul_div_le_of_le (t + 1) _ _ hN ht)
  have h := march_data_frame
    { thread_at_sampling inp orderR t with image := img, grid := G }
    (thread_range (run_thread_data inp t)).1 (thread_range (run_thread_data inp t)).2 k
  simp only [h3, h4, h5, hx, hy, run_range_fst inp orderR t, run_range_snd inp orderR t ht] at h ⊢
  exact h (fun i' j' hi' _ hj' => htemp i' j' hi' (by omega)) hk

/-- The marching phase keeps the dimensions of the working image. -/
theorem march_phase_dims (inp : run_input) (orderR orderS orderM : List Nat) :
    (march_phase inp orderR orderS orderM).x = (working_image inp orderR).x ∧
      (march_phase inp orderR orderS orderM).y = (working_image inp orderR).y := by
  unfold march_phase
  have h := (foldl_frame (fun img : ppm_image => (img.x, img.y)) (fun _ => True)
    (fun img t => march { thread_at_sampling inp orderR t with
        image := img, grid := sample_phase inp orderR orderS }
      (thread_range (run_thread_data inp t)).1 (thread_range (run_thread_data inp t)).2)
    orderM (working_image inp orderR) trivial (fun _ _ _ _ => trivial) (by
      intro img t _ _
      have hd := march_dims { thread_at_sampling inp orderR t with
          image := img, grid := sample_phase inp orderR orderS }
        (thread_range (run_thread_data inp t)).1 (thread_range (run_thread_data inp t)).2
      exact Prod.ext hd.1 hd.2)).1
  exact ⟨congrArg Prod.fst h, congrArg Prod.snd h⟩

/-- After the marching phase a pixel outside every block of the grid still has
the value of the working image. -/
theorem march_phase_frame (inp : run_input) (orderR orderS orderM : List Nat)
    (hin : ∀ t, t ∈ orderM → t < inp.THREAD_COUNT)
    (htemp : ∀ i j, i < (working_image inp orderR).x / STEP →
      j < (working_image inp orderR).y / STEP →
      (inp.contour_map (march_code (sample_phase inp orderR orderS) i j)).x = STEP ∧
      (inp.contour_map (march_code (sample_phase inp orderR orderS) i j)).y = STEP)
    (k : Int)
    (hk : ∀ i j a b, i < (working_image inp orderR).x / STEP →
      j < (working_image inp orderR).y / STEP → a < STEP → b < STEP →
      k ≠ (((i * STEP + a) * (working_image inp orderR).y + j * STEP + b : Nat) : Int)) :
    (march_phase inp orderR orderS orderM).data k = (working_image inp orderR).data k := by
  unfold march_phase
  refine (foldl_frame (fun img : ppm_image => img.data k)
    (fun img => img.x = (working_image inp orderR).x ∧ img.y = (working_image inp orderR).y)
    _ orderM (working_image inp orderR) ⟨rfl, rfl⟩ ?_ ?_).1
  · intro img t _ himg
    have hd := march_dims { thread_at_sampling inp orderR t with
        image := img, grid := sample_phase inp orderR orderS }
      (thread_range (run_thread_data inp t)).1 (thread_range (run_thread_data inp t)).2
    exact ⟨hd.1.trans himg.1, hd.2.trans himg.2⟩
  · intro img t ht himg
    have hN : 0 < inp.THREAD_COUNT := by have := hin t ht; omega
    have hend : (t + 1) * (working_image inp orderR).y / inp.THREAD_COUNT / STEP ≤
        (working_image inp orderR).y / STEP :=
      Nat.div_le_div_right (mul_div_le_of_le (t + 1) _ _ hN (hin t ht))
    refine run_march_frame inp orderR t (hin t ht) _ img himg.1 himg.2 htemp k ?_
    intro i j a b hi _ hje ha hb
    exact hk i j a b hi (by omega) ha hb

/-- After the marching phase the block of cell `(i, j)` holds the template
selected by the code of the cell, whatever the number of workers and the order
in which they ran. -/
theorem march_phase_written (inp : run_input) (orderR orderS orderM : List Nat)
    (hN : 0 < inp.THREAD_COUNT) (hin : ∀ t, t ∈ orderM → t < inp.THREAD_COUNT)
    (hall : ∀ t, t < inp.THREAD_COUNT → t ∈ orderM)
    (htemp : ∀ i j, i < (working_image inp orderR).x / STEP →
      j < (working_image inp orderR).y / STEP →
      (inp.contour_map (march_code (sample_phase inp orderR orderS) i j)).x = STEP ∧
      (inp.contour_map (march_code (sample_phase inp orderR orderS) i j)).y = STEP)
    (i j a b : Nat) (hi : i < (working_image inp orderR).x / STEP)
    (hj : j < (working_image inp orderR).y / STEP) (ha : a < STEP) (hb : b < STEP) :
    (march_phase inp orderR orderS orderM).data
        (((i * STEP + a) * (working_image inp orderR).y + j * STEP + b : Nat) : Int) =
      (inp.contour_map (march_code (sample_phase inp orderR orderS) i j)).data
        ((STEP * a + b : Nat) : Int) := by
  have hend : ∀ t, t < inp.THREAD_COUNT →
      (t + 1) * (working_image inp orderR).y / inp.THREAD_COUNT / STEP ≤
        (working_image inp orderR).y / STEP := by
    intro t ht
    exact Nat.div_le_div_right (mul_div_le_of_le (t + 1) _ _ hN ht)
  obtain ⟨t0, ⟨ht0, hlo0, hhi0⟩, _⟩ :=
    column_partition (working_image inp orderR).y inp.THREAD_COUNT STEP j hN hj
  unfold march_phase
  refine foldl_written (fun img : ppm_image => img.data
      (((i * STEP + a) * (working_image inp orderR).y + j * STEP + b : Nat) : Int))
    (fun img => img.x = (working_image inp orderR).x ∧ img.y = (working_image inp orderR).y)
    _ (fun t => t * (working_image inp orderR).y / inp.THREAD_COUNT / STEP ≤ j ∧
        j < (t + 1) * (working_image inp orderR).y / inp.THREAD_COUNT / STEP)
    _ orderM (working_image inp orderR) ⟨rfl, rfl⟩ ?_ ?_ ?_ ⟨t0, hall t0 ht0, hlo0, hhi0⟩
  · intro img t _ himg
    have hd := march_dims { thread_at_sampling inp orderR t with
        image := img, grid := sample_phase inp orderR orderS }
      (thread_range (run_thread_data inp t)).1 (thread_range (run_thread_data inp t)).2
    exact ⟨hd.1.trans himg.1, hd.2.trans himg.2⟩
  · intro img t ht himg hw
    exact run_march_written inp orderR t (hin t ht) _ img himg.1 himg.2 htemp i j a b hi
      hw.1 hw.2 ha hb
  · intro img t ht himg hw
    refine run_march_frame inp orderR t (hin t ht) _ img himg.1 himg.2 htemp _ ?_
    intro i' j' a' b' hi' hjs' hje' ha' hb' h
    have he := hend t (hin t ht)
    have h' := Int.ofNat_inj.mp h
    have hu := block_unique STEP STEP (working_image inp orderR).y i j a b i' j' a' b' ha hb
      ha' hb' (column_fits STEP _ j _ hhi0 (hend t0 ht0)) (column_fits STEP _ j' _ hje' he) h'
    exact hw ⟨hu.2.1 ▸ hjs', hu.2.1 ▸ hje'⟩

/-! ## Values of the grid and of the code -/

theorem sample_value_binary (sigma : Nat) (px : ppm_pixel) :
    sample_value sigma px = 0 ∨ sample_value sigma px = 1 := by
  unfold sample_value
  simp only []
  split_ifs
  · exact Or.inl rfl
  · exact Or.inr rfl

theorem sample_value_eq (sigma : Nat) (px : ppm_pixel) :
    sample_value sigma px =
      if (px.red.val + px.green.val + px.blue.val) / 3 ≤ sigma then 1 else 0 := by
  unfold sample_value
  have h1 := px.red.isLt
  have h2 := px.green.isLt
  have h3 := px.blue.isLt
  have h : (px.red.val + px.green.val + px.blue.val) / 3 % 256 =
      (px.red.val + px.green.val + px.blue.val) / 3 := by omega
  simp only [h]
  split_ifs <;> first | rfl | (exfalso; omega)

/-- After the sampling phase every cell of the `(p + 1)` by `(q + 1)` grid holds
`0` or `1`, and the corner cell holds `0`. -/
theorem sample_phase_binary (inp : run_input) (orderR orderS : List Nat)
    (hN : 0 < inp.THREAD_COUNT) (hin : ∀ t, t ∈ orderS → t < inp.THREAD_COUNT)
    (hall : ∀ t, t < inp.THREAD_COUNT → t ∈ orderS) :
    (∀ a b, a ≤ (working_image inp orderR).x / STEP → b ≤ (working_image inp orderR).y / STEP →
      sample_phase inp orderR orderS a b = 0 ∨ sample_phase inp orderR orderS a b = 1) ∧
    sample_phase inp orderR orderS ((working_image inp orderR).x / STEP)
      ((working_image inp orderR).y / STEP) = 0 := by
  constructor
  · intro a b ha hb
    rw [sample_phase_apply inp orderR orderS hN hin hall]
    split_ifs
    · exact sample_value_binary _ _
    · exact sample_value_binary _ _
    · exact Or.inl rfl
    · exact sample_value_binary _ _
    · exfalso; omega
  · rw [sample_phase_apply inp orderR orderS hN hin hall]
    split_ifs <;> first | rfl | (exfalso; omega)

/-- On a grid of zeros and ones the byte `k` of `march` is the plain sum and is
below sixteen. -/
theorem march_code_of_binary (grid : Nat → Nat → Nat) (i j : Nat)
    (h00 : grid i j = 0 ∨ grid i j = 1) (h01 : grid i (j + 1) = 0 ∨ grid i (j + 1) = 1)
    (h11 : grid (i + 1) (j + 1) = 0 ∨ grid (i + 1) (j + 1) = 1)
    (h10 : grid (i + 1) j = 0 ∨ grid (i + 1) j = 1) :
    march_code grid i j =
        8 * grid i j + 4 * grid i (j + 1) + 2 * grid (i + 1) (j + 1) + grid (i + 1) j ∧
      march_code grid i j ≤ 15 := by
  unfold march_code
  omega

theorem perm_range_mem {l : List Nat} {N : Nat} (h : l.Perm (List.range N)) (t : Nat) :
    t ∈ l ↔ t < N := by
  rw [h.mem_iff, List.mem_range]

theorem working_image_of_le (inp : run_input) (orderR : List Nat)
    (hx : inp.image.x ≤ RESCALE_X) : working_image inp orderR = inp.image := by
  rw [working_image_eq, if_neg (by omega)]

/-- Every range of `thread_func` ends inside the image the worker samples. -/
theorem run_range_snd_le (inp : run_input) (orderR : List Nat) (t : Nat)
    (ht : t < inp.THREAD_COUNT) :
    (thread_range (run_thread_data inp t)).2 ≤ (thread_at_sampling inp orderR t).image.y := by
  rw [run_range_snd inp orderR t ht, thread_at_sampling_image]
  exact mul_div_le_of_le (t + 1) _ _ (by omega) ht

/-- C2 (rescale trigger), evaluated on an image with `x = 16`, `y = 4096`. The
image exceeds `RESCALE_Y`, and `main` allocates the `RESCALE_X` by `RESCALE_Y`
buffer for it, yet the test of line 184 fails for every worker: the rescale
phase is skipped and the worker keeps the input image as its working image. -/
theorem rescale_skipped_on_tall_image :
    (tall_input.image.x > RESCALE_X ∨ tall_input.image.y > RESCALE_Y) ∧
    (main_new_image tall_input.image tall_input.fresh).x = RESCALE_X ∧
    (main_new_image tall_input.image tall_input.fresh).y = RESCALE_Y ∧
    (∀ t, thread_rescales (run_thread_data tall_input t) = false) ∧
    (∀ t, (thread_rescale_phase tall_input.sample_bicubic (run_thread_data tall_input t)).image =
      tall_input.image) := by
  have hr : ∀ t, thread_rescales (run_thread_data tall_input t) = false := by
    intro t
    rw [run_thread_rescales]
    decide
  refine ⟨Or.inr (by decide), by decide, by decide, hr, ?_⟩
  intro t
  unfold thread_rescale_phase
  rw [hr t]
  rfl

/-- C3 (output dimensions), evaluated on the same image with `x = 16`,
`y = 4096`: the image handed to `write_ppm` still has the dimensions of the
input, not `RESCALE_X` by `RESCALE_Y`. -/
theorem output_dims_on_tall_image (orderR orderS orderM : List Nat) :
    (tall_input.image.x > RESCALE_X ∨ tall_input.image.y > RESCALE_Y) ∧
    (march_phase tall_input orderR orderS orderM).x = 16 ∧
    (march_phase tall_input orderR orderS orderM).y = 4096 := by
  have hd := march_phase_dims tall_input orderR orderS orderM
  have hW := working_image_of_le tall_input orderR (by decide)
  rw [hW] at hd
  exact ⟨Or.inr (by decide), hd.1, hd.2⟩

/-- C4 (grid dimensions), evaluated on the same image with `x = 16`,
`y = 4096`: `main` allocates 257 rows of 257 bytes (`p = q = 256`), while
`sample_grid` and `march` compute `p = 2` and `q = 512` from the working image. -/
theorem grid_dims_on_tall_image (orderR : List Nat) (t : Nat) :
    main_grid_dims tall_input.image tall_input.fresh = (257, 257) ∧
    (thread_at_sampling tall_input orderR t).image.x /
      (thread_at_sampling tall_input orderR t).step_x = 2 ∧
    (thread_at_sampling tall_input orderR t).image.y /
      (thread_at_sampling tall_input orderR t).step_y = 512 := by
  obtain ⟨_, _, h3, h4, _⟩ := thread_at_sampling_fields tall_input orderR t
  rw [thread_at_sampling_image, h3, h4, working_image_of_le tall_input orderR (by decide)]
  exact ⟨by decide, by decide, by decide⟩

/-- C5 (grid-column partition). For `THREAD_COUNT ≥ 1` the grid-column ranges
`[start_t / STEP, end_t / STEP)` of the workers, with `start_t` and `end_t` as
computed in `thread_func`, cut `[0, q)` into disjoint pieces, `q` being `y / STEP`
of the working image: every column `j < q` lies in the range of exactly one
worker, and no range holds a column outside `[0, q)`. -/
theorem grid_column_partition (inp : run_input) (orderR : List Nat)
    (hN : 1 ≤ inp.THREAD_COUNT) :
    (∀ j, j < (working_image inp orderR).y / STEP →
      ∃! t, t < inp.THREAD_COUNT ∧
        (thread_range (run_thread_data inp t)).1 / STEP ≤ j ∧
        j < (thread_range (run_thread_data inp t)).2 / STEP) ∧
    (∀ t j, t < inp.THREAD_COUNT →
      (thread_range (run_thread_data inp t)).1 / STEP ≤ j →
      j < (thread_range (run_thread_data inp t)).2 / STEP →
      j < (working_image inp orderR).y / STEP) := by
  constructor
  · intro j hj
    obtain ⟨t, ⟨ht, hlo, hhi⟩, huniq⟩ :=
      column_partition (working_image inp orderR).y inp.THREAD_COUNT STEP j hN hj
    refine ⟨t, ⟨ht, ?_, ?_⟩, ?_⟩
    · rw [run_range_fst inp orderR t]; exact hlo
    · rw [run_range_snd inp orderR t ht]; exact hhi
    · rintro t' ⟨ht', hlo', hhi'⟩
      rw [run_range_fst inp orderR t'] at hlo'
      rw [run_range_snd inp orderR t' ht'] at hhi'
      exact huniq t' ⟨ht', hlo', hhi'⟩
  · intro t j ht _ hhi
    rw [run_range_snd inp orderR t ht] at hhi
    have := Nat.div_le_div_right (c := STEP)
      (mul_div_le_of_le (t + 1) (working_image inp orderR).y inp.THREAD_COUNT hN ht)
    omega

theorem grid_column_partition_witness :
    ∃! t, t < square_input.THREAD_COUNT ∧
      (thread_range (run_thread_data square_input t)).1 / STEP ≤ 1 ∧
      1 < (thread_range (run_thread_data square_input t)).2 / STEP :=
  (grid_column_partition square_input [] (by decide)).1 1 (by
    rw [working_image_of_le square_input [] (by decide)]
    decide)

/-- C6 (interior sampling). For a range that ends inside the image
(`end_index ≤ image->y`, as every range of `thread_func` does), a row `i < p` and
a column `j` of the range, `sample_grid` leaves in `grid[i][j]` the value `1`
when the integer average `(red + green + blue) / 3` of the pixel at buffer index
`i * step_x * image->y + j * step_y` is at most `sigma`, and `0` otherwise. -/
theorem interior_sampling (data : thread_data) (sigma start_index end_index : Nat)
    (grid : Nat → Nat → Nat) (i j : Nat) (hend : end_index ≤ data.image.y)
    (hi : i < data.image.x / data.step_x) (hjs : start_index / data.step_y ≤ j)
    (hje : j < end_index / data.step_y) :
    sample_grid data sigma start_index end_index grid i j =
      if ((data.image.data ((i * data.step_x * data.image.y + j * data.step_y : Nat) : Int)).red.val +
          (data.image.data ((i * data.step_x * data.image.y + j * data.step_y : Nat) : Int)).green.val +
          (data.image.data ((i * data.step_x * data.image.y + j * data.step_y : Nat) : Int)).blue.val) / 3
          ≤ sigma then 1 else 0 := by
  have hq : end_index / data.step_y ≤ data.image.y / data.step_y := Nat.div_le_div_right hend
  rw [sample_grid_apply, ← sample_value_eq]
  split_ifs <;> first | rfl | (exfalso; omega)

theorem interior_sampling_witness :
    sample_grid (run_thread_data square_input 0) SIGMA 0 8 checker_grid 1 0 = 1 :=
  interior_sampling (run_thread_data square_input 0) SIGMA 0 8 checker_grid 1 0
    (by decide) (by decide) (by decide) (by decide)

/-- C7 (boundary sampling), evaluated on an image with `x = 8`, `y = 16` whose
only black pixel is the last one of row 0 (column `y - 1 = 15`, index 15). Here
`p = 1` and `q = 2`. The thresholded value of that pixel is `1`, but after the
sampling phase `grid[0][q]` is `0`: line 94 reads index `0 * 8 * 16 + x - 1 = 7`,
the pixel in column `x - 1` of row 0, which is white. -/
theorem last_column_on_wide_image :
    wide_input.image.x / STEP = 1 ∧ wide_input.image.y / STEP = 2 ∧
    sample_value SIGMA (wide_input.image.data (((0 * STEP * wide_input.image.y +
      (wide_input.image.y - 1) : Nat) : Int))) = 1 ∧
    sample_phase wide_input [] [0] 0 2 = 0 ∧
    sample_phase wide_input [] [0] 0 2 =
      sample_value SIGMA (wide_input.image.data
        (((0 * STEP * wide_input.image.y + wide_input.image.x : Nat) : Int) - 1)) := by
  have h := sample_phase_apply wide_input [] [0] (by decide)
    (by intro t ht; simp only [List.mem_singleton] at ht; subst ht; decide)
    (by intro t ht; have h1 : t < 1 := ht; simp only [List.mem_singleton]; omega) 0 2
  rw [working_image_of_le wide_input [] (by decide)] at h
  refine ⟨by decide, by decide, by decide, ?_, ?_⟩
  · rw [h]; decide
  · rw [h]; decide

/-- C8 (grid values). For an image within both rescale bounds, `THREAD_COUNT ≥ 1`
and any initial content of the grid, after all workers ran `sample_grid` (in any
order) every cell `grid[i][j]` with `i ≤ p` and `j ≤ q` holds `0` or `1`, and
`grid[p][q]` holds `0`. -/
theorem grid_cells_binary (inp : run_input) (hx : inp.image.x ≤ RESCALE_X)
    (_hy : inp.image.y ≤ RESCALE_Y) (hN : 1 ≤ inp.THREAD_COUNT) (orderR orderS : List Nat)
    (hS : orderS.Perm (List.range inp.THREAD_COUNT)) :
    (∀ i j, i ≤ inp.image.x / STEP → j ≤ inp.image.y / STEP →
      sample_phase inp orderR orderS i j = 0 ∨ sample_phase inp orderR orderS i j = 1) ∧
    sample_phase inp orderR orderS (inp.image.x / STEP) (inp.image.y / STEP) = 0 := by
  have h := sample_phase_binary inp orderR orderS hN
    (fun t h => (perm_range_mem hS t).mp h) (fun t h => (perm_range_mem hS t).mpr h)
  rw [working_image_of_le inp orderR hx] at h
  exact h

theorem grid_cells_binary_witness :
    sample_phase square_input [] [1, 0] (square_input.image.x / STEP)
      (square_input.image.y / STEP) = 0 :=
  (grid_cells_binary square_input (by decide) (by decide) (by decide) [] [1, 0] (by decide)).2

/-- C9 (marching code). On a grid whose cells `grid[a][b]`, `a ≤ p`, `b ≤ q`, are
all `0` or `1`, for every cell `(i, j)` with `i < p` and `j < q` the template
index `k` of `march` equals
`8 * grid[i][j] + 4 * grid[i][j+1] + 2 * grid[i+1][j+1] + grid[i+1][j]` (the
`unsigned char` does not wrap) and is at most 15, so below
`CONTOUR_CONFIG_COUNT`. -/
theorem march_code_range (data : thread_data)
    (hbin : ∀ a b, a ≤ data.image.x / data.step_x → b ≤ data.image.y / data.step_y →
      data.grid a b = 0 ∨ data.grid a b = 1)
    (i j : Nat) (hi : i < data.image.x / data.step_x) (hj : j < data.image.y / data.step_y) :
    march_code data.grid i j =
        8 * data.grid i j + 4 * data.grid i (j + 1) + 2 * data.grid (i + 1) (j + 1) +
          data.grid (i + 1) j ∧
      march_code data.grid i j ≤ 15 ∧ march_code data.grid i j < CONTOUR_CONFIG_COUNT := by
  have h := march_code_of_binary data.grid i j (hbin i j (by omega) (by omega))
    (hbin i (j + 1) (by omega) (by omega)) (hbin (i + 1) (j + 1) (by omega) (by omega))
    (hbin (i + 1) j (by omega) (by omega))
  refine ⟨h.1, h.2, ?_⟩
  unfold CONTOUR_CONFIG_COUNT
  omega

theorem march_code_range_witness :
    march_code checker_grid 1 0 = 10 :=
  (march_code_range { run_thread_data square_input 0 with grid := checker_grid }
    (by
      intro a b _ _
      show (a + b) % 2 = 0 ∨ (a + b) % 2 = 1
      omega)
    1 0 (by decide) (by decide)).1

/-- C10 as stated fails for a template that is not square. The template has
`x = 2` rows of `y = 3` pixels and is stamped at the origin of an image of the
same dimensions, so the block lies inside the image. The image pixel at row 1,
column 0 receives the template entry at index `contour.x * 1 + 0 = 2`, which
is the template pixel at row 0, column 2, not the one at row 1, column 0
(index `1 * contour.y + 0 = 3`). -/
theorem update_image_oblong_template :
    oblong_template.x = 2 ∧ oblong_template.y = 3 ∧
    0 + oblong_template.x ≤ oblong_image.x ∧ 0 + oblong_template.y ≤ oblong_image.y ∧
    (update_image oblong_image oblong_template 0 0).data
        (((0 + 1) * oblong_image.y + 0 + 0 : Nat) : Int) ≠
      oblong_template.data ((1 * oblong_template.y + 0 : Nat) : Int) := by
  refine ⟨rfl, rfl, by decide, by decide, ?_⟩
  rw [update_image_data_written oblong_image oblong_template 0 0 1 0 (by decide) (by decide)
    (by decide)]
  decide

/-- C10, amended to square templates (`contour.x = contour.y`, as the
`STEP` by `STEP` templates of the program are). For every origin `(x, y)` whose
block lies inside the image, after `update_image` the image pixel at row `x + a`,
column `y + b` is the template pixel at row `a`, column `b`, for every
`a < contour.x` and `b < contour.y`: the whole template is copied. -/
theorem update_image_square_template (image contour : ppm_image) (x y a b : Nat)
    (hsq : contour.x = contour.y) (_hfx : x + contour.x ≤ image.x)
    (hfy : y + contour.y ≤ image.y) (ha : a < contour.x) (hb : b < contour.y) :
    (update_image image contour x y).data (((x + a) * image.y + y + b : Nat) : Int) =
      contour.data ((a * contour.y + b : Nat) : Int) := by
  rw [update_image_data_written image contour x y a b ha hb hfy, hsq, Nat.mul_comm]

theorem update_image_square_template_witness :
    (update_image square_input.image (numbered_template 3) 8 8).data
        (((8 + 1) * square_input.image.y + 8 + 2 : Nat) : Int) =
      (numbered_template 3).data ((1 * (numbered_template 3).y + 2 : Nat) : Int) :=
  update_image_square_template square_input.image (numbered_template 3) 8 8 1 2 rfl
    (by decide) (by decide) (by decide) (by decide)

/-! ## The access lists and the loops -/

theorem mem_sample_grid_writes (data : thread_data) (start_index end_index a b : Nat) :
    (a, b) ∈ sample_grid_writes data start_index end_index ↔
      (a < data.image.x / data.step_x ∧ start_index / data.step_y ≤ b ∧
        b < end_index / data.step_y) ∨
      (a = data.image.x / data.step_x ∧ b = data.image.y / data.step_y) ∨
      (data.thread_id + 1 = data.thread_count ∧
        ((a < data.image.x / data.step_x ∧ b = data.image.y / data.step_y) ∨
         (a = data.image.x / data.step_x ∧ b < data.image.y / data.step_y))) := by
  unfold sample_grid_writes
  simp only []
  by_cases hlast : data.thread_id + 1 = data.thread_count
  · simp only [hlast, if_true, List.mem_append, List.mem_flatMap, List.mem_map, List.mem_range,
      mem_range'_iff, List.mem_singleton, Prod.mk.injEq, true_and]
    constructor
    · rintro (((⟨i, hi, j, hj, rfl, rfl⟩ | ⟨rfl, rfl⟩) | ⟨i, hi, rfl, rfl⟩) | ⟨j, hj, rfl, rfl⟩)
      · exact Or.inl ⟨hi, hj⟩
      · exact Or.inr (Or.inl ⟨rfl, rfl⟩)
      · exact Or.inr (Or.inr (Or.inl ⟨hi, rfl⟩))
      · exact Or.inr (Or.inr (Or.inr ⟨rfl, hj⟩))
    · rintro (⟨hi, hj⟩ | ⟨rfl, rfl⟩ | ⟨hi, rfl⟩ | ⟨rfl, hj⟩)
      · exact Or.inl (Or.inl (Or.inl ⟨a, hi, b, hj, rfl, rfl⟩))
      · exact Or.inl (Or.inl (Or.inr ⟨rfl, rfl⟩))
      · exact Or.inl (Or.inr ⟨a, hi, rfl, rfl⟩)
      · exact Or.inr ⟨b, hj, rfl, rfl⟩
  · simp only [hlast, if_false, List.mem_append, List.mem_flatMap, List.mem_map, List.mem_range,
      mem_range'_iff, List.mem_singleton, Prod.mk.injEq, false_and, or_false]
    constructor
    · rintro (⟨i, hi, j, hj, rfl, rfl⟩ | ⟨rfl, rfl⟩)
      · exact Or.inl ⟨hi, hj⟩
      · exact Or.inr ⟨rfl, rfl⟩
    · rintro (⟨hi, hj⟩ | ⟨rfl, rfl⟩)
      · exact Or.inl ⟨a, hi, b, hj, rfl, rfl⟩
      · exact Or.inr ⟨rfl, rfl⟩

/-- `sample_grid` changes no cell outside `sample_grid_writes`. -/
theorem sample_grid_frame (data : thread_data) (sigma start_index end_index : Nat)
    (grid : Nat → Nat → Nat) (a b : Nat)
    (h : (a, b) ∉ sample_grid_writes data start_index end_index) :
    sample_grid data sigma start_index end_index grid a b = grid a b := by
  rw [mem_sample_grid_writes] at h
  rw [sample_grid_apply]
  split_ifs with h1 h2 h3 h4
  · exact absurd (Or.inr (Or.inr ⟨h1.1, Or.inr h1.2⟩)) h
  · exact absurd (Or.inr (Or.inr ⟨h2.1, Or.inl h2.2⟩)) h
  · exact absurd (Or.inr (Or.inl h3)) h
  · exact absurd (Or.inl h4) h
  · rfl

/-- Every cell of `sample_grid_writes` is overwritten: its final value is `0` or
`1` whatever the grid held. -/
theorem sample_grid_written (data : thread_data) (sigma start_index end_index : Nat)
    (grid : Nat → Nat → Nat) (a b : Nat)
    (h : (a, b) ∈ sample_grid_writes data start_index end_index) :
    sample_grid data sigma start_index end_index grid a b = 0 ∨
      sample_grid data sigma start_index end_index grid a b = 1 := by
  rw [mem_sample_grid_writes] at h
  rw [sample_grid_apply]
  split_ifs with h1 h2 h3 h4
  · exact sample_value_binary _ _
  · exact sample_value_binary _ _
  · exact Or.inl rfl
  · exact sample_value_binary _ _
  · exfalso
    rcases h with h | h | ⟨hl, h | h⟩
    · exact h4 h
    · exact h3 h
    · exact h2 ⟨hl, h⟩
    · exact h1 ⟨hl, h⟩

theorem mem_sample_grid_reads (data : thread_data) (start_index end_index : Nat) (k : Int) :
    k ∈ sample_grid_reads data start_index end_index ↔
      (∃ i j, i < data.image.x / data.step_x ∧ start_index / data.step_y ≤ j ∧
        j < end_index / data.step_y ∧
        k = ((i * data.step_x * data.image.y + j * data.step_y : Nat) : Int)) ∨
      (data.thread_id + 1 = data.thread_count ∧
        ((∃ i, i < data.image.x / data.step_x ∧
            k = ((i * data.step_x * data.image.y + data.image.x : Nat) : Int) - 1) ∨
         (∃ j, j < data.image.y / data.step_y ∧
            k = ((data.image.x : Int) - 1) * (data.image.y : Int) +
              ((j * data.step_y : Nat) : Int)))) := by
  unfold sample_grid_reads
  simp only []
  by_cases hlast : data.thread_id + 1 = data.thread_count
  · simp only [hlast, if_true, List.mem_append, List.mem_flatMap, List.mem_map, List.mem_range,
      mem_range'_iff, true_and]
    constructor
    · rintro ((⟨i, hi, j, hj, rfl⟩ | ⟨i, hi, rfl⟩) | ⟨j, hj, rfl⟩)
      · exact Or.inl ⟨i, j, hi, hj.1, hj.2, rfl⟩
      · exact Or.inr (Or.inl ⟨i, hi, rfl⟩)
      · exact Or.inr (Or.inr ⟨j, hj, rfl⟩)
    · rintro (⟨i, j, hi, hjs, hje, rfl⟩ | ⟨i, hi, rfl⟩ | ⟨j, hj, rfl⟩)
      · exact Or.inl (Or.inl ⟨i, hi, j, ⟨hjs, hje⟩, rfl⟩)
      · exact Or.inl (Or.inr ⟨i, hi, rfl⟩)
      · exact Or.inr ⟨j, hj, rfl⟩
  · simp only [hlast, if_false, List.mem_flatMap, List.mem_map, List.mem_range,
      mem_range'_iff, false_and, or_false]
    constructor
    · rintro ⟨i, hi, j, hj, rfl⟩
      exact ⟨i, j, hi, hj.1, hj.2, rfl⟩
    · rintro ⟨i, j, hi, hjs, hje, rfl⟩
      exact ⟨i, hi, j, ⟨hjs, hje⟩, rfl⟩

/-- The result of `sample_grid` depends on the pixel buffer only through the
indices of `sample_grid_reads`. -/
theorem sample_grid_reads_complete (data : thread_data) (sigma start_index end_index : Nat)
    (grid : Nat → Nat → Nat) (buffer : Int → ppm_pixel)
    (h : ∀ k, k ∈ sample_grid_reads data start_index end_index →
      buffer k = data.image.data k) :
    sample_grid { data with image := { data.image with data := buffer } } sigma
        start_index end_index grid =
      sample_grid data sigma start_index end_index grid := by
  funext a b
  rw [sample_grid_apply, sample_grid_apply]
  simp only []
  split_ifs with h1 h2 h3 h4
  · rw [h _ ((mem_sample_grid_reads _ _ _ _).mpr (Or.inr ⟨h1.1, Or.inr ⟨b, h1.2.2, rfl⟩⟩))]
  · rw [h _ ((mem_sample_grid_reads _ _ _ _).mpr (Or.inr ⟨h2.1, Or.inl ⟨a, h2.2.1, rfl⟩⟩))]
  · rfl
  · rw [h _ ((mem_sample_grid_reads _ _ _ _).mpr (Or.inl ⟨a, b, h4.1, h4.2.1, h4.2.2, rfl⟩))]
  · rfl

theorem mem_update_image_writes (image contour : ppm_image) (x y : Nat) (k : Int) :
    k ∈ update_image_writes image contour x y ↔
      ∃ a b, a < contour.x ∧ b < contour.y ∧
        k = (((x + a) * image.y + y + b : Nat) : Int) := by
  unfold update_image_writes
  simp only [List.mem_flatMap, List.mem_map, List.mem_range]
  constructor
  · rintro ⟨a, ha, b, hb, rfl⟩
    exact ⟨a, b, ha, hb, rfl⟩
  · rintro ⟨a, b, ha, hb, rfl⟩
    exact ⟨a, ha, b, hb, rfl⟩

theorem mem_update_image_reads (contour : ppm_image) (n : Int) :
    n ∈ update_image_reads contour ↔
      ∃ a b, a < contour.x ∧ b < contour.y ∧ n = ((contour.x * a + b : Nat) : Int) := by
  unfold update_image_reads
  simp only [List.mem_flatMap, List.mem_map, List.mem_range]
  constructor
  · rintro ⟨a, ha, b, hb, rfl⟩
    exact ⟨a, b, ha, hb, rfl⟩
  · rintro ⟨a, b, ha, hb, rfl⟩
    exact ⟨a, ha, b, hb, rfl⟩

/-- `update_image` changes no pixel outside `update_image_writes`. -/
theorem update_image_writes_frame (image contour : ppm_image) (x y : Nat) (k : Int)
    (h : k ∉ update_image_writes image contour x y) :
    (update_image image contour x y).data k = image.data k := by
  refine update_image_data_frame image contour x y k ?_
  intro a b ha hb hk
  exact h ((mem_update_image_writes _ _ _ _ _).mpr ⟨a, b, ha, hb, hk⟩)

theorem mem_march_writes (data : thread_data) (start end_ : Nat) (k : Int) :
    k ∈ march_writes data start end_ ↔
      ∃ i j, i < data.image.x / data.step_x ∧ start / data.step_y ≤ j ∧
        j < end_ / data.step_y ∧
        k ∈ update_image_writes data.image (data.contour_map (march_code data.grid i j))
          (i * data.step_x) (j * data.step_y) := by
  unfold march_writes
  simp only [List.mem_flatMap, List.mem_range, mem_range'_iff]
  constructor
  · rintro ⟨i, hi, j, hj, h⟩
    exact ⟨i, j, hi, hj.1, hj.2, h⟩
  · rintro ⟨i, j, hi, hjs, hje, h⟩
    exact ⟨i, hi, j, ⟨hjs, hje⟩, h⟩

theorem mem_march_grid_reads (data : thread_data) (start end_ : Nat) (a b : Nat) :
    (a, b) ∈ march_grid_reads data start end_ ↔
      ∃ i j, i < data.image.x / data.step_x ∧ start / data.step_y ≤ j ∧
        j < end_ / data.step_y ∧
        ((a = i ∧ b = j) ∨ (a = i ∧ b = j + 1) ∨ (a = i + 1 ∧ b = j + 1) ∨
          (a = i + 1 ∧ b = j)) := by
  unfold march_grid_reads
  simp only [List.mem_flatMap, List.mem_range, mem_range'_iff, List.mem_cons,
    List.mem_singleton, Prod.mk.injEq, List.not_mem_nil, or_false]
  constructor
  · rintro ⟨i, hi, j, hj, h⟩
    exact ⟨i, j, hi, hj.1, hj.2, h⟩
  · rintro ⟨i, j, hi, hjs, hje, h⟩
    exact ⟨i, hi, j, ⟨hjs, hje⟩, h⟩

theorem mem_march_template_reads (data : thread_data) (start end_ : Nat) (k : Nat) (n : Int) :
    (k, n) ∈ march_template_reads data start end_ ↔
      ∃ i j, i < data.image.x / data.step_x ∧ start / data.step_y ≤ j ∧
        j < end_ / data.step_y ∧ k = march_code data.grid i j ∧
        n ∈ update_image_reads (data.contour_map (march_code data.grid i j)) := by
  unfold march_template_reads
  simp only [List.mem_flatMap, List.mem_map, List.mem_range, mem_range'_iff, Prod.mk.injEq]
  constructor
  · rintro ⟨i, hi, j, hj, m, hm, rfl, rfl⟩
    exact ⟨i, j, hi, hj.1, hj.2, rfl, hm⟩
  · rintro ⟨i, j, hi, hjs, hje, rfl, hm⟩
    exact ⟨i, hi, j, ⟨hjs, hje⟩, n, hm, rfl, rfl⟩

/-- `march` changes no pixel outside `march_writes`. -/
theorem march_writes_frame (data : thread_data) (start end_ : Nat) (k : Int)
    (h : k ∉ march_writes data start end_) :
    (march data start end_).data k = data.image.data k := by
  unfold march
  simp only []
  refine (foldl_frame (fun img : ppm_image => img.data k)
    (fun img => img.y = data.image.y) _
    (List.range (data.image.x / data.step_x)) data.image rfl ?_ ?_).1
  · intro img i _ himg
    exact (march_row_dims data i _ img).2.trans himg
  · intro img i hi himg
    refine (foldl_frame (fun img : ppm_image => img.data k)
      (fun img => img.y = data.image.y) _ _ img himg ?_ ?_).1
    · intro _ _ _ h
      exact h
    intro img' j hj himg'
    have hi' := List.mem_range.mp hi
    have hj' := (mem_range'_iff _ _ _).mp hj
    refine update_image_data_frame img' _ _ _ k ?_
    intro a b ha hb hk
    rw [himg'] at hk
    exact h ((mem_march_writes data start end_ k).mpr ⟨i, j, hi', hj'.1, hj'.2,
      (mem_update_image_writes _ _ _ _ _).mpr ⟨a, b, ha, hb, hk⟩⟩)

/-! ## Blocks, rows and columns -/

/-- A row below `x` and a column below `y` give an index inside the buffer. -/
theorem index_lt (x y r c : Nat) (hr : r < x) (hc : c < y) : r * y + c < x * y := by
  have h1 : (r + 1) * y ≤ x * y := Nat.mul_le_mul_right y hr
  rw [Nat.add_mul, Nat.one_mul] at h1
  omega

theorem cell_row_lt (x sx i a : Nat) (hi : i < x / sx) (ha : a < sx) : i * sx + a < x := by
  have h1 : (i + 1) * sx ≤ x / sx * sx := Nat.mul_le_mul_right sx hi
  have h2 : x / sx * sx ≤ x := Nat.div_mul_le_self x sx
  rw [Nat.add_mul, Nat.one_mul] at h1
  omega

/-- The grid of a run after sampling selects templates of the right size. -/
theorem run_templates_fit (inp : run_input) (orderR orderS : List Nat)
    (htemp : ∀ k, k < CONTOUR_CONFIG_COUNT →
      (inp.contour_map k).x = STEP ∧ (inp.contour_map k).y = STEP)
    (hN : 0 < inp.THREAD_COUNT) (hin : ∀ t, t ∈ orderS → t < inp.THREAD_COUNT)
    (hall : ∀ t, t < inp.THREAD_COUNT → t ∈ orderS) :
    ∀ i j, i < (working_image inp orderR).x / STEP → j < (working_image inp orderR).y / STEP →
      (inp.contour_map (march_code (sample_phase inp orderR orderS) i j)).x = STEP ∧
      (inp.contour_map (march_code (sample_phase inp orderR orderS) i j)).y = STEP := by
  intro i j hi hj
  have hbin := (sample_phase_binary inp orderR orderS hN hin hall).1
  have hc := (march_code_of_binary (sample_phase inp orderR orderS) i j
    (hbin i j (by omega) (by omega)) (hbin i (j + 1) (by omega) (by omega))
    (hbin (i + 1) (j + 1) (by omega) (by omega)) (hbin (i + 1) j (by omega) (by omega))).2
  exact htemp _ (by unfold CONTOUR_CONFIG_COUNT; omega)

/-- The indices one worker of a run writes in `march`: the pixels of the blocks
of its cells. -/
theorem run_mem_march_writes (inp : run_input) (orderR : List Nat) (t : Nat)
    (ht : t < inp.THREAD_COUNT) (G : Nat → Nat → Nat) (img : ppm_image)
    (hy : img.y = (working_image inp orderR).y) (hx : img.x = (working_image inp orderR).x)
    (htemp : ∀ i j, i < (working_image inp orderR).x / STEP →
      j < (working_image inp orderR).y / STEP →
      (inp.contour_map (march_code G i j)).x = STEP ∧
      (inp.contour_map (march_code G i j)).y = STEP)
    (k : Int) :
    k ∈ march_writes { thread_at_sampling inp orderR t with image := img, grid := G }
        (thread_range (run_thread_data inp t)).1 (thread_range (run_thread_data inp t)).2 ↔
      ∃ i j a b, i < (working_image inp orderR).x / STEP ∧
        t * (working_image inp orderR).y / inp.THREAD_COUNT / STEP ≤ j ∧
        j < (t + 1) * (working_image inp orderR).y / inp.THREAD_COUNT / STEP ∧
        a < STEP ∧ b < STEP ∧
        k = (((i * STEP + a) * (working_image inp orderR).y + j * STEP + b : Nat) : Int) := by
  obtain ⟨_, _, h3, h4, h5⟩ := thread_at_sampling_fields inp orderR t
  have hN : 0 < inp.THREAD_COUNT := by omega
  have hend : (t + 1) * (working_image inp orderR).y / inp.THREAD_COUNT / STEP ≤
      (working_image inp orderR).y / STEP :=
    Nat.div_le_div_right (mul_div_le_of_le (t + 1) _ _ hN ht)
  rw [mem_march_writes]
  simp only [h3, h4, h5, hx, hy, run_range_fst inp orderR t, run_range_snd inp orderR t ht,
    mem_update_image_writes]
  constructor
  · rintro ⟨i, j, hi, hjs, hje, a, b, ha, hb, rfl⟩
    obtain ⟨h1, h2⟩ := htemp i j hi (by omega)
    exact ⟨i, j, a, b, hi, hjs, hje, h1 ▸ ha, h2 ▸ hb, rfl⟩
  · rintro ⟨i, j, a, b, hi, hjs, hje, ha, hb, rfl⟩
    obtain ⟨h1, h2⟩ := htemp i j hi (by omega)
    exact ⟨i, j, hi, hjs, hje, a, b, h1.symm ▸ ha, h2.symm ▸ hb, rfl⟩

/-- The length of one range: `n / N` or `n / N + 1`. -/
theorem range_length (n N t : Nat) (hN : 0 < N) :
    t * n / N + n / N ≤ (t + 1) * n / N ∧ (t + 1) * n / N ≤ t * n / N + n / N + 1 := by
  have h1 : (t + 1) * n = t * n + n % N + N * (n / N) := by
    have := Nat.div_add_mod n N
    rw [Nat.add_mul, Nat.one_mul]
    omega
  have h2 : (t + 1) * n / N = (t * n + n % N) / N + n / N := by
    rw [h1, Nat.add_mul_div_left _ _ hN]
  have h3 : t * n / N ≤ (t * n + n % N) / N := Nat.div_le_div_right (Nat.le_add_right _ _)
  have h4 : (t * n + n % N) / N ≤ (t * n + N) / N :=
    Nat.div_le_div_right (by have := Nat.mod_lt n hN; omega)
  rw [Nat.add_div_right _ hN] at h4
  omega

/-- A pixel whose average is above `sigma` is sampled as `0`. -/
theorem sample_value_light (sigma : Nat) (px : ppm_pixel)
    (h : sigma < (px.red.val + px.green.val + px.blue.val) / 3) : sample_value sigma px = 0 := by
  rw [sample_value_eq, if_neg (by omega)]

/-- When every last-column sample of line 94 lies inside the buffer
(`1 ≤ x ≤ STEP * y`), an image whose pixels all have an average above `SIGMA` is
sampled as zeros, every code is `0`, and every tile is template 0. -/
theorem light_image_all_zero (inp : run_input) (orderR orderS orderM : List Nat)
    (hx : inp.image.x ≤ RESCALE_X) (hpos : 1 ≤ inp.image.x)
    (hread : inp.image.x ≤ STEP * inp.image.y)
    (hlight : ∀ k : Int, 0 ≤ k → k < ((inp.image.x * inp.image.y : Nat) : Int) →
      SIGMA < ((inp.image.data k).red.val + (inp.image.data k).green.val +
        (inp.image.data k).blue.val) / 3)
    (htemp : (inp.contour_map 0).x = STEP ∧ (inp.contour_map 0).y = STEP)
    (hN : 1 ≤ inp.THREAD_COUNT) (hS : orderS.Perm (List.range inp.THREAD_COUNT))
    (hM : orderM.Perm (List.range inp.THREAD_COUNT)) :
    (∀ a b, a ≤ inp.image.x / STEP → b ≤ inp.image.y / STEP →
      sample_phase inp orderR orderS a b = 0) ∧
    (∀ i j, i < inp.image.x / STEP → j < inp.image.y / STEP →
      march_code (sample_phase inp orderR orderS) i j = 0) ∧
    (∀ i j a b, i < inp.image.x / STEP → j < inp.image.y / STEP → a < STEP → b < STEP →
      (march_phase inp orderR orderS orderM).data
          (((i * STEP + a) * inp.image.y + j * STEP + b : Nat) : Int) =
        (inp.contour_map 0).data ((STEP * a + b : Nat) : Int)) := by
  have hinS : ∀ t, t ∈ orderS → t < inp.THREAD_COUNT := fun t h => (perm_range_mem hS t).mp h
  have hallS : ∀ t, t < inp.THREAD_COUNT → t ∈ orderS := fun t h => (perm_range_mem hS t).mpr h
  have hinM : ∀ t, t ∈ orderM → t < inp.THREAD_COUNT := fun t h => (perm_range_mem hM t).mp h
  have hallM : ∀ t, t < inp.THREAD_COUNT → t ∈ orderM := fun t h => (perm_range_mem hM t).mpr h
  have hW := working_image_of_le inp orderR hx
  have hzero : ∀ a b, a ≤ inp.image.x / STEP → b ≤ inp.image.y / STEP →
      sample_phase inp orderR orderS a b = 0 := by
    intro a b ha hb
    rw [sample_phase_apply inp orderR orderS hN hinS hallS, hW]
    split_ifs with h1 h2 h3 h4
    · -- last row
      refine sample_value_light _ _ (hlight _ ?_ ?_)
      · have h0 : (0 : Int) ≤ (inp.image.x : Int) - 1 := by omega
        exact Int.add_nonneg (Int.mul_nonneg h0 (Int.ofNat_nonneg _)) (Int.ofNat_nonneg _)
      · obtain ⟨x', hx'⟩ : ∃ x', inp.image.x = x' + 1 := ⟨inp.image.x - 1, by omega⟩
        have hcol := column_fits STEP inp.image.y b _ h1.2 (le_refl _)
        have he : ((inp.image.x : Int) - 1) * (inp.image.y : Int) + ((b * STEP : Nat) : Int) =
            ((x' * inp.image.y + b * STEP : Nat) : Int) := by
          rw [hx']
          push_cast
          ring
        rw [he]
        refine Int.ofNat_lt.mpr ?_
        have hS8 : 0 < STEP := by decide
        exact index_lt inp.image.x inp.image.y x' (b * STEP) (by omega) (by omega)
    · -- last column
      have h5 : (a * STEP + STEP) * inp.image.y ≤ inp.image.x * inp.image.y :=
        Nat.mul_le_mul_right _ (by
          have := cell_row_lt inp.image.x STEP a (STEP - 1) h2.1 (by decide)
          unfold STEP at this ⊢
          omega)
      have hle : a * STEP * inp.image.y + inp.image.x ≤ inp.image.x * inp.image.y :=
        calc a * STEP * inp.image.y + inp.image.x
            ≤ a * STEP * inp.image.y + STEP * inp.image.y := Nat.add_le_add_left hread _
          _ = (a * STEP + STEP) * inp.image.y := (Nat.add_mul _ _ _).symm
          _ ≤ inp.image.x * inp.image.y := h5
      have hone : 1 ≤ a * STEP * inp.image.y + inp.image.x :=
        Nat.le_trans hpos (Nat.le_add_left _ _)
      have c1 : (1 : Int) ≤ ((a * STEP * inp.image.y + inp.image.x : Nat) : Int) :=
        Int.ofNat_le.mpr hone
      have c2 : (((a * STEP * inp.image.y + inp.image.x : Nat) : Int)) ≤
          ((inp.image.x * inp.image.y : Nat) : Int) := Int.ofNat_le.mpr hle
      refine sample_value_light _ _ (hlight _ ?_ ?_)
      · omega
      · omega
    · rfl
    · -- interior
      refine sample_value_light _ _ (hlight _ (Int.ofNat_nonneg _) (Int.ofNat_lt.mpr ?_))
      have hS8 : 0 < STEP := by decide
      have hrow := cell_row_lt inp.image.x STEP a 0 h4.1 hS8
      have hcol := column_fits STEP inp.image.y b _ h4.2 (le_refl _)
      exact index_lt inp.image.x inp.image.y (a * STEP) (b * STEP) (by omega) (by omega)
    · exfalso; omega
  have hcode : ∀ i j, i < inp.image.x / STEP → j < inp.image.y / STEP →
      march_code (sample_phase inp orderR orderS) i j = 0 := by
    intro i j hi hj
    unfold march_code
    rw [hzero i j (by omega) (by omega), hzero i (j + 1) (by omega) (by omega),
      hzero (i + 1) (j + 1) (by omega) (by omega), hzero (i + 1) j (by omega) (by omega)]
  refine ⟨hzero, hcode, ?_⟩
  intro i j a b hi hj ha hb
  have hfit : ∀ i j, i < (working_image inp orderR).x / STEP →
      j < (working_image inp orderR).y / STEP →
      (inp.contour_map (march_code (sample_phase inp orderR orderS) i j)).x = STEP ∧
      (inp.contour_map (march_code (sample_phase inp orderR orderS) i j)).y = STEP := by
    intro i j hi hj
    rw [hW] at hi hj
    rw [hcode i j hi hj]
    exact htemp
  have hw := march_phase_written inp orderR orderS orderM hN hinM hallM hfit i j a b
    (by rw [hW]; exact hi) (by rw [hW]; exact hj) ha hb
  rw [hW, hcode i j hi hj] at hw
  exact hw

/-- Every grid cell a worker of a run writes in `sample_grid` lies in the
`(p + 1)` by `(q + 1)` grid of the working image. -/
theorem run_sample_grid_writes_in_grid (inp : run_input) (orderR : List Nat) (t : Nat)
    (ht : t < inp.THREAD_COUNT) (a b : Nat)
    (h : (a, b) ∈ sample_grid_writes (thread_at_sampling inp orderR t)
      (thread_range (run_thread_data inp t)).1 (thread_range (run_thread_data inp t)).2) :
    a ≤ (working_image inp orderR).x / STEP ∧ b ≤ (working_image inp orderR).y / STEP := by
  obtain ⟨t1, t2, t3, t4, _⟩ := thread_at_sampling_fields inp orderR t
  rw [mem_sample_grid_writes, thread_at_sampling_image, t1, t2, t3, t4,
    run_range_fst inp orderR t, run_range_snd inp orderR t ht] at h
  have hend : (t + 1) * (working_image inp orderR).y / inp.THREAD_COUNT / STEP ≤
      (working_image inp orderR).y / STEP :=
    Nat.div_le_div_right (mul_div_le_of_le (t + 1) _ _ (by omega) ht)
  omega

/-! ## Two runs that agree on the buffer only -/

theorem interior_read_in_buffer (x y a b : Nat) (ha : a < x / STEP) (hb : b < y / STEP) :
    a * STEP * y + b * STEP < x * y := by
  have hS8 : 0 < STEP := by decide
  have hrow := cell_row_lt x STEP a 0 ha hS8
  have hcol := column_fits STEP y b _ hb (le_refl _)
  exact index_lt x y (a * STEP) (b * STEP) (by omega) (by omega)

theorem last_row_read_in_buffer (x y b : Nat) (hpos : 1 ≤ x) (hb : b < y / STEP) :
    (0 : Int) ≤ ((x : Int) - 1) * (y : Int) + ((b * STEP : Nat) : Int) ∧
      ((x : Int) - 1) * (y : Int) + ((b * STEP : Nat) : Int) < ((x * y : Nat) : Int) := by
  obtain ⟨x', hx'⟩ : ∃ x', x = x' + 1 := ⟨x - 1, by omega⟩
  have hS8 : 0 < STEP := by decide
  have hcol := column_fits STEP y b _ hb (le_refl _)
  have he : ((x : Int) - 1) * (y : Int) + ((b * STEP : Nat) : Int) =
      ((x' * y + b * STEP : Nat) : Int) := by
    rw [hx']
    push_cast
    ring
  rw [he]
  exact ⟨Int.ofNat_nonneg _,
    Int.ofNat_lt.mpr (index_lt x y x' (b * STEP) (by omega) (by omega))⟩

theorem last_column_read_in_buffer (x y a : Nat) (hpos : 1 ≤ x) (hread : x ≤ STEP * y)
    (ha : a < x / STEP) :
    (0 : Int) ≤ ((a * STEP * y + x : Nat) : Int) - 1 ∧
      ((a * STEP * y + x : Nat) : Int) - 1 < ((x * y : Nat) : Int) := by
  have h5 : (a * STEP + STEP) * y ≤ x * y :=
    Nat.mul_le_mul_right _ (by
      have := cell_row_lt x STEP a (STEP - 1) ha (by decide)
      unfold STEP at this ⊢
      omega)
  have hle : a * STEP * y + x ≤ x * y :=
    calc a * STEP * y + x
        ≤ a * STEP * y + STEP * y := Nat.add_le_add_left hread _
      _ = (a * STEP + STEP) * y := (Nat.add_mul _ _ _).symm
      _ ≤ x * y := h5
  have hone : 1 ≤ a * STEP * y + x := Nat.le_trans hpos (Nat.le_add_left _ _)
  have c1 : (1 : Int) ≤ ((a * STEP * y + x : Nat) : Int) := Int.ofNat_le.mpr hone
  have c2 : ((a * STEP * y + x : Nat) : Int) ≤ ((x * y : Nat) : Int) := Int.ofNat_le.mpr hle
  constructor <;> omega

/-- Thread-count independence where line 94 stays inside the buffer
(`1 ≤ x ≤ STEP * y`). A run with `THREAD_COUNT ≥ 1` workers and a run with one
worker, on images of the same dimensions that agree at every index of the
buffer and may differ outside it, with the same templates (sixteen, `STEP` by
`STEP`) and any uninitialised grids: the `(p + 1)` by `(q + 1)` grids are equal,
and the output images have the same dimensions and the same pixels at every
index of the buffer. -/
theorem thread_count_independence_in_buffer (inp inp1 : run_input)
    (hx : inp.image.x ≤ RESCALE_X) (hpos : 1 ≤ inp.image.x)
    (hread : inp.image.x ≤ STEP * inp.image.y)
    (hdx : inp1.image.x = inp.image.x) (hdy : inp1.image.y = inp.image.y)
    (hdata : ∀ k : Int, 0 ≤ k → k < ((inp.image.x * inp.image.y : Nat) : Int) →
      inp1.image.data k = inp.image.data k)
    (hcm : inp1.contour_map = inp.contour_map) (hone : inp1.THREAD_COUNT = 1)
    (htemp : ∀ k, k < CONTOUR_CONFIG_COUNT →
      (inp.contour_map k).x = STEP ∧ (inp.contour_map k).y = STEP)
    (hN : 1 ≤ inp.THREAD_COUNT) (orderR orderS orderM : List Nat)
    (hS : orderS.Perm (List.range inp.THREAD_COUNT))
    (hM : orderM.Perm (List.range inp.THREAD_COUNT)) :
    (∀ i j, i ≤ inp.image.x / STEP → j ≤ inp.image.y / STEP →
      sample_phase inp orderR orderS i j = sample_phase inp1 [0] [0] i j) ∧
    (∀ k : Int, 0 ≤ k → k < ((inp.image.x * inp.image.y : Nat) : Int) →
      (march_phase inp orderR orderS orderM).data k = (march_phase inp1 [0] [0] [0]).data k) ∧
    (march_phase inp orderR orderS orderM).x = (march_phase inp1 [0] [0] [0]).x ∧
    (march_phase inp orderR orderS orderM).y = (march_phase inp1 [0] [0] [0]).y := by
  have hW := working_image_of_le inp orderR hx
  have hW1 := working_image_of_le inp1 [0] (by rw [hdx]; exact hx)
  have hinS : ∀ t, t ∈ orderS → t < inp.THREAD_COUNT := fun t h => (perm_range_mem hS t).mp h
  have hallS : ∀ t, t < inp.THREAD_COUNT → t ∈ orderS := fun t h => (perm_range_mem hS t).mpr h
  have hinM : ∀ t, t ∈ orderM → t < inp.THREAD_COUNT := fun t h => (perm_range_mem hM t).mp h
  have hallM : ∀ t, t < inp.THREAD_COUNT → t ∈ orderM := fun t h => (perm_range_mem hM t).mpr h
  have hN1 : 0 < inp1.THREAD_COUNT := by omega
  have hin1 : ∀ t, t ∈ [0] → t < inp1.THREAD_COUNT := by
    intro t h
    simp only [List.mem_singleton] at h
    omega
  have hall1 : ∀ t, t < inp1.THREAD_COUNT → t ∈ [0] := by
    intro t h
    simp only [List.mem_singleton]
    omega
  have hgrid : ∀ i j, i ≤ inp.image.x / STEP → j ≤ inp.image.y / STEP →
      sample_phase inp orderR orderS i j = sample_phase inp1 [0] [0] i j := by
    intro i j hi hj
    rw [sample_phase_apply inp orderR orderS hN hinS hallS,
      sample_phase_apply inp1 [0] [0] hN1 hin1 hall1, hW, hW1]
    simp only [hdx, hdy]
    split_ifs with h1 h2 h3 h4
    · obtain ⟨c1, c2⟩ := last_row_read_in_buffer inp.image.x inp.image.y j hpos h1.2
      rw [hdata _ c1 c2]
    · obtain ⟨c1, c2⟩ := last_column_read_in_buffer inp.image.x inp.image.y i hpos hread h2.1
      rw [hdata _ c1 c2]
    · rfl
    · rw [hdata _ (Int.ofNat_nonneg _)
        (Int.ofNat_lt.mpr (interior_read_in_buffer inp.image.x inp.image.y i j h4.1 h4.2))]
    · exfalso; omega
  have hcode : ∀ i j, i < inp.image.x / STEP → j < inp.image.y / STEP →
      march_code (sample_phase inp orderR orderS) i j =
        march_code (sample_phase inp1 [0] [0]) i j := by
    intro i j hi hj
    unfold march_code
    rw [hgrid i j (by omega) (by omega), hgrid i (j + 1) (by omega) (by omega),
      hgrid (i + 1) (j + 1) (by omega) (by omega), hgrid (i + 1) j (by omega) (by omega)]
  have htempG := run_templates_fit inp orderR orderS htemp hN hinS hallS
  have htempG1 := run_templates_fit inp1 [0] [0] (by rw [hcm]; exact htemp) hN1 hin1 hall1
  have hd := march_phase_dims inp orderR orderS orderM
  have hd1 := march_phase_dims inp1 [0] [0] [0]
  refine ⟨hgrid, ?_, ?_, ?_⟩
  · intro k h0 hk
    by_cases hblk : ∃ i j a b, i < inp.image.x / STEP ∧ j < inp.image.y / STEP ∧ a < STEP ∧
        b < STEP ∧ k = (((i * STEP + a) * inp.image.y + j * STEP + b : Nat) : Int)
    · obtain ⟨i, j, a, b, hi, hj, ha, hb, rfl⟩ := hblk
      have e1 := march_phase_written inp orderR orderS orderM hN hinM hallM htempG i j a b
        (by rw [hW]; exact hi) (by rw [hW]; exact hj) ha hb
      have e2 := march_phase_written inp1 [0] [0] [0] hN1 hin1 hall1 htempG1 i j a b
        (by rw [hW1, hdx]; exact hi) (by rw [hW1, hdy]; exact hj) ha hb
      rw [hW] at e1
      rw [hW1, hdy, hcm] at e2
      rw [e1, e2, hcode i j hi hj]
    · have e1 := march_phase_frame inp orderR orderS orderM hinM htempG k (by
        intro i j a b hi hj ha hb h
        rw [hW] at hi hj h
        exact hblk ⟨i, j, a, b, hi, hj, ha, hb, h⟩)
      have e2 := march_phase_frame inp1 [0] [0] [0] hin1 htempG1 k (by
        intro i j a b hi hj ha hb h
        rw [hW1] at hi hj h
        rw [hdx] at hi
        rw [hdy] at hj h
        exact hblk ⟨i, j, a, b, hi, hj, ha, hb, h⟩)
      rw [e1, e2, hW, hW1, hdata k h0 hk]
  · rw [hd.1, hd1.1, hW, hW1, hdx]
  · rw [hd.2, hd1.2, hW, hW1, hdy]

/-! ## Claims, continued -/

/-- C11 (all-light image), evaluated on an image with `x = 72`, `y = 8` whose 576
pixels are all white (`p = 9`, `q = 1`), with one worker. Line 94 reads for
`i = 8` the index `8 * 8 * 8 + 72 - 1 = 583`, which is outside the buffer; with
dark memory there `grid[8][1]` becomes `1`, the code of cell `(8, 0)` is `4`, and
the tile of that cell receives template 4 instead of template 0. -/
theorem light_image_on_slim_image :
    slim_input.image.x ≤ RESCALE_X ∧ slim_input.image.y ≤ RESCALE_Y ∧
    (∀ k : Int, 0 ≤ k → k < ((slim_input.image.x * slim_input.image.y : Nat) : Int) →
      SIGMA < ((slim_input.image.data k).red.val + (slim_input.image.data k).green.val +
        (slim_input.image.data k).blue.val) / 3) ∧
    sample_phase slim_input [] [0] 8 1 = 1 ∧
    march_code (sample_phase slim_input [] [0]) 8 0 = 4 ∧
    (march_phase slim_input [] [0] [0]).data
        (((8 * STEP + 0) * slim_input.image.y + 0 * STEP + 0 : Nat) : Int) =
      (numbered_template 4).data ((STEP * 0 + 0 : Nat) : Int) ∧
    (numbered_template 4).data ((STEP * 0 + 0 : Nat) : Int) ≠
      (numbered_template 0).data ((STEP * 0 + 0 : Nat) : Int) := by
  have hin : ∀ t, t ∈ [0] → t < slim_input.THREAD_COUNT := by
    intro t ht
    simp only [List.mem_singleton] at ht
    subst ht
    decide
  have hall : ∀ t, t < slim_input.THREAD_COUNT → t ∈ [0] := by
    intro t ht
    have h1 : t < 1 := ht
    simp only [List.mem_singleton]
    omega
  have hW := working_image_of_le slim_input [] (by decide)
  have hg : ∀ a b, sample_phase slim_input [] [0] a b = _ :=
    fun a b => sample_phase_apply slim_input [] [0] (by decide) hin hall a b
  rw [hW] at hg
  have hcode : march_code (sample_phase slim_input [] [0]) 8 0 = 4 := by
    unfold march_code
    rw [hg 8 0, hg 8 (0 + 1), hg (8 + 1) (0 + 1), hg (8 + 1) 0]
    decide
  refine ⟨by decide, by decide, ?_, ?_, hcode, ?_, by decide⟩
  · intro k h0 h1
    have h1' : k < 576 := h1
    show SIGMA < (((if 0 ≤ k ∧ k < 576 then white else black).red.val +
      (if 0 ≤ k ∧ k < 576 then white else black).green.val +
      (if 0 ≤ k ∧ k < 576 then white else black).blue.val) / 3)
    rw [if_pos ⟨h0, h1'⟩]
    decide
  · rw [hg 8 1]
    decide
  · have hw := march_phase_written slim_input [] [0] [0] (by decide) hin hall
      (fun _ _ _ _ => ⟨rfl, rfl⟩) 8 0 0 0
    rw [hW, hcode] at hw
    exact hw (by decide) (by decide) (by decide) (by decide)

/-- C13 (disjoint stamping). For an image within both rescale bounds, templates
of size `STEP` by `STEP`, the grid left by the sampling phase, `THREAD_COUNT ≥ 2`
and two distinct workers `s ≠ t`, no image index written by `march` for worker
`s` is written by `march` for worker `t`; and the blocks `update_image` stamps
for two different cells `(i, j) ≠ (i', j')` of the grid share no index. The
images `imgS` and `imgT` are the shared image at the time each worker runs: any
content, the dimensions of the working image. -/
theorem march_writes_disjoint (inp : run_input) (orderR orderS : List Nat)
    (hx : inp.image.x ≤ RESCALE_X) (_hy : inp.image.y ≤ RESCALE_Y)
    (htemp : ∀ k, k < CONTOUR_CONFIG_COUNT →
      (inp.contour_map k).x = STEP ∧ (inp.contour_map k).y = STEP)
    (hN : 2 ≤ inp.THREAD_COUNT) (hS : orderS.Perm (List.range inp.THREAD_COUNT))
    (imgS imgT : ppm_image)
    (hSx : imgS.x = inp.image.x) (hSy : imgS.y = inp.image.y)
    (hTx : imgT.x = inp.image.x) (hTy : imgT.y = inp.image.y) :
    (∀ s t, s < inp.THREAD_COUNT → t < inp.THREAD_COUNT → s ≠ t → ∀ k,
      k ∈ march_writes { thread_at_sampling inp orderR s with
          image := imgS, grid := sample_phase inp orderR orderS }
        (thread_range (run_thread_data inp s)).1 (thread_range (run_thread_data inp s)).2 →
      k ∉ march_writes { thread_at_sampling inp orderR t with
          image := imgT, grid := sample_phase inp orderR orderS }
        (thread_range (run_thread_data inp t)).1 (thread_range (run_thread_data inp t)).2) ∧
    (∀ i j i' j', i < inp.image.x / STEP → j < inp.image.y / STEP →
      i' < inp.image.x / STEP → j' < inp.image.y / STEP → (i, j) ≠ (i', j') → ∀ k,
      k ∈ update_image_writes imgS
        (inp.contour_map (march_code (sample_phase inp orderR orderS) i j))
        (i * STEP) (j * STEP) →
      k ∉ update_image_writes imgT
        (inp.contour_map (march_code (sample_phase inp orderR orderS) i' j'))
        (i' * STEP) (j' * STEP)) := by
  have hN0 : 0 < inp.THREAD_COUNT := by omega
  have hW := working_image_of_le inp orderR hx
  have hfit := run_templates_fit inp orderR orderS htemp hN0
    (fun t h => (perm_range_mem hS t).mp h) (fun t h => (perm_range_mem hS t).mpr h)
  have hend : ∀ t, t < inp.THREAD_COUNT →
      (t + 1) * inp.image.y / inp.THREAD_COUNT / STEP ≤ inp.image.y / STEP := by
    intro t ht
    exact Nat.div_le_div_right (mul_div_le_of_le (t + 1) _ _ hN0 ht)
  constructor
  · intro s t hs ht hne k h1 h2
    rw [run_mem_march_writes inp orderR s hs _ imgS (by rw [hW]; exact hSy)
      (by rw [hW]; exact hSx) hfit] at h1
    rw [run_mem_march_writes inp orderR t ht _ imgT (by rw [hW]; exact hTy)
      (by rw [hW]; exact hTx) hfit] at h2
    rw [hW] at h1 h2
    obtain ⟨i, j, a, b, _, hjs, hje, ha, hb, rfl⟩ := h1
    obtain ⟨i', j', a', b', _, hjs', hje', ha', hb', h⟩ := h2
    have hu := block_unique STEP STEP inp.image.y i j a b i' j' a' b' ha hb ha' hb'
      (column_fits STEP _ j _ hje (hend s hs)) (column_fits STEP _ j' _ hje' (hend t ht))
      (Int.ofNat_inj.mp h)
    obtain ⟨u, _, huniq⟩ := column_partition inp.image.y inp.THREAD_COUNT STEP j hN0
      (by have := hend s hs; omega)
    exact hne ((huniq s ⟨hs, hjs, hje⟩).trans
      (huniq t ⟨ht, hu.2.1 ▸ hjs', hu.2.1 ▸ hje'⟩).symm)
  · intro i j i' j' hi hj hi' hj' hne k h1 h2
    rw [hW] at hfit
    obtain ⟨c1, c2⟩ := hfit i j hi hj
    obtain ⟨c1', c2'⟩ := hfit i' j' hi' hj'
    rw [mem_update_image_writes, c1, c2, hSy] at h1
    rw [mem_update_image_writes, c1', c2', hTy] at h2
    obtain ⟨a, b, ha, hb, rfl⟩ := h1
    obtain ⟨a', b', ha', hb', h⟩ := h2
    have hu := block_unique STEP STEP inp.image.y i j a b i' j' a' b' ha hb ha' hb'
      (column_fits STEP _ j _ hj (le_refl _)) (column_fits STEP _ j' _ hj' (le_refl _))
      (Int.ofNat_inj.mp h)
    exact hne (Prod.ext hu.1 hu.2.1)

theorem march_writes_disjoint_witness :
    (0 : Int) ∉ update_image_writes square_input.image
      (square_input.contour_map (march_code (sample_phase square_input [] [1, 0]) 0 1))
      (0 * STEP) (1 * STEP) :=
  (march_writes_disjoint square_input [] [1, 0] (by decide) (by decide)
    (fun _ _ => ⟨rfl, rfl⟩) (by decide) (by decide) square_input.image square_input.image
    rfl rfl rfl rfl).2 0 0 0 1 (by decide) (by decide) (by decide) (by decide) (by decide) 0
    ((mem_update_image_writes _ _ _ _ _).mpr ⟨0, 0, Nat.succ_pos 7, Nat.succ_pos 7, rfl⟩)

/-- C14 (pixel-range partition). For `thread_count ≥ 1`, on the rescale path
(`n = new_image->y`) and on the other path (`n = image->y`), the ranges
`[start_t, end_t)` computed in `thread_func` satisfy `start_0 = 0`,
`end_t = start_{t+1}` for `t < N - 1` and `end_{N-1} = n`, and every `k < n` lies
in exactly one of them. -/
theorem pixel_range_partition (data : thread_data) (hN : 1 ≤ data.thread_count) :
    (thread_range { data with thread_id := 0 }).1 = 0 ∧
    (∀ t, t + 1 < data.thread_count →
      (thread_range { data with thread_id := t }).2 =
        (thread_range { data with thread_id := t + 1 }).1) ∧
    (thread_range { data with thread_id := data.thread_count - 1 }).2 =
      (if thread_rescales data then data.new_image.y else data.image.y) ∧
    (∀ k, k < (if thread_rescales data then data.new_image.y else data.image.y) →
      ∃! t, t < data.thread_count ∧ (thread_range { data with thread_id := t }).1 ≤ k ∧
        k < (thread_range { data with thread_id := t }).2) := by
  have hfst : ∀ t, (thread_range { data with thread_id := t }).1 =
      t * (if thread_rescales data then data.new_image.y else data.image.y) /
        data.thread_count := fun t => thread_range_fst { data with thread_id := t }
  have hsnd : ∀ t, t < data.thread_count → (thread_range { data with thread_id := t }).2 =
      (t + 1) * (if thread_rescales data then data.new_image.y else data.image.y) /
        data.thread_count :=
    fun t ht => thread_range_snd { data with thread_id := t } hN ht
  refine ⟨?_, ?_, ?_, ?_⟩
  · rw [hfst 0]
    simp
  · intro t ht
    rw [hsnd t (by omega), hfst (t + 1)]
  · rw [hsnd (data.thread_count - 1) (by omega)]
    have h : data.thread_count - 1 + 1 = data.thread_count := by omega
    rw [h]
    exact Nat.mul_div_cancel_left _ hN
  · intro k hk
    obtain ⟨t, ⟨ht, hlo, hhi⟩, huniq⟩ := column_partition
      (if thread_rescales data then data.new_image.y else data.image.y)
      data.thread_count 1 k hN (by rw [Nat.div_one]; exact hk)
    rw [Nat.div_one] at hlo hhi
    refine ⟨t, ⟨ht, ?_, ?_⟩, ?_⟩
    · rw [hfst t]; exact hlo
    · rw [hsnd t ht]; exact hhi
    · rintro t' ⟨ht', hlo', hhi'⟩
      rw [hfst t'] at hlo'
      rw [hsnd t' ht'] at hhi'
      exact huniq t' ⟨ht', by rw [Nat.div_one]; exact hlo', by rw [Nat.div_one]; exact hhi'⟩

theorem pixel_range_partition_witness :
    (thread_range { run_thread_data square_input 0 with thread_id := 0 }).2 =
      (thread_range { run_thread_data square_input 0 with thread_id := 0 + 1 }).1 :=
  (pixel_range_partition (run_thread_data square_input 0) (by decide)).2.1 0 (by decide)

/-- C15 (even partition). For `thread_count ≥ 1` the lengths `end_t - start_t` of
the ranges computed in `thread_func` for two workers differ by at most 1. -/
theorem pixel_range_even (data : thread_data) (hN : 1 ≤ data.thread_count) (s t : Nat)
    (hs : s < data.thread_count) (ht : t < data.thread_count) :
    (thread_range { data with thread_id := s }).2 - (thread_range { data with thread_id := s }).1 ≤
      (thread_range { data with thread_id := t }).2 -
        (thread_range { data with thread_id := t }).1 + 1 := by
  have hfst : ∀ t, (thread_range { data with thread_id := t }).1 =
      t * (if thread_rescales data then data.new_image.y else data.image.y) /
        data.thread_count := fun t => thread_range_fst { data with thread_id := t }
  have hsnd : ∀ t, t < data.thread_count → (thread_range { data with thread_id := t }).2 =
      (t + 1) * (if thread_rescales data then data.new_image.y else data.image.y) /
        data.thread_count :=
    fun t ht => thread_range_snd { data with thread_id := t } hN ht
  rw [hfst s, hfst t, hsnd s hs, hsnd t ht]
  have h1 := range_length (if thread_rescales data then data.new_image.y else data.image.y)
    data.thread_count s hN
  have h2 := range_length (if thread_rescales data then data.new_image.y else data.image.y)
    data.thread_count t hN
  omega

theorem pixel_range_even_witness :
    (thread_range { run_thread_data square_input 0 with thread_id := 0 }).2 -
        (thread_range { run_thread_data square_input 0 with thread_id := 0 }).1 ≤
      (thread_range { run_thread_data square_input 0 with thread_id := 1 }).2 -
        (thread_range { run_thread_data square_input 0 with thread_id := 1 }).1 + 1 :=
  pixel_range_even (run_thread_data square_input 0) (by decide) 0 1 (by decide) (by decide)

/-- C16 (read safety of sampling), evaluated on the image with `x = 72`, `y = 8`
(a buffer of 576 pixels) and one worker: `sample_grid` reads the index
`8 * 8 * 8 + 72 - 1 = 583` (line 94 with `i = 8`), which is not below `x * y`. -/
theorem sample_read_outside_slim_image :
    1 ≤ slim_input.image.x ∧ 1 ≤ slim_input.image.y ∧
    (583 : Int) ∈ sample_grid_reads (thread_at_sampling slim_input [] 0)
      (thread_range (run_thread_data slim_input 0)).1
      (thread_range (run_thread_data slim_input 0)).2 ∧
    ¬ ((583 : Int) < ((slim_input.image.x * slim_input.image.y : Nat) : Int)) := by
  refine ⟨by decide, by decide, ?_, by decide⟩
  rw [mem_sample_grid_reads]
  exact Or.inr ⟨by decide, Or.inl ⟨8, by decide, by decide⟩⟩

/-- C17 (safety of marching). For a worker `t < THREAD_COUNT` of a run, a grid
whose cells `grid[a][b]`, `a ≤ p`, `b ≤ q`, are `0` or `1`, and sixteen templates
of size `STEP` by `STEP`: every grid cell `march` reads lies in the `(p + 1)` by
`(q + 1)` grid, every template it selects has an index below
`CONTOUR_CONFIG_COUNT` and is read at indices below `contour.x * contour.y`, and
every image index `update_image` writes is below `x * y`. The image `img` is the
shared image when the worker runs (any content, the dimensions of the working
image). -/
theorem march_accesses_in_bounds (inp : run_input) (orderR : List Nat)
    (G : Nat → Nat → Nat) (img : ppm_image)
    (hG : ∀ a b, a ≤ (working_image inp orderR).x / STEP →
      b ≤ (working_image inp orderR).y / STEP → G a b = 0 ∨ G a b = 1)
    (htemp : ∀ k, k < CONTOUR_CONFIG_COUNT →
      (inp.contour_map k).x = STEP ∧ (inp.contour_map k).y = STEP)
    (hN : 1 ≤ inp.THREAD_COUNT) (t : Nat) (ht : t < inp.THREAD_COUNT)
    (hx : img.x = (working_image inp orderR).x) (hy : img.y = (working_image inp orderR).y) :
    (∀ a b, (a, b) ∈ march_grid_reads
        { thread_at_sampling inp orderR t with image := img, grid := G }
        (thread_range (run_thread_data inp t)).1 (thread_range (run_thread_data inp t)).2 →
      a ≤ img.x / STEP ∧ b ≤ img.y / STEP) ∧
    (∀ k n, (k, n) ∈ march_template_reads
        { thread_at_sampling inp orderR t with image := img, grid := G }
        (thread_range (run_thread_data inp t)).1 (thread_range (run_thread_data inp t)).2 →
      k < CONTOUR_CONFIG_COUNT ∧ 0 ≤ n ∧
        n < (((inp.contour_map k).x * (inp.contour_map k).y : Nat) : Int)) ∧
    (∀ k, k ∈ march_writes
        { thread_at_sampling inp orderR t with image := img, grid := G }
        (thread_range (run_thread_data inp t)).1 (thread_range (run_thread_data inp t)).2 →
      0 ≤ k ∧ k < ((img.x * img.y : Nat) : Int)) := by
  obtain ⟨_, _, h3, h4, h5⟩ := thread_at_sampling_fields inp orderR t
  have hend : (t + 1) * (working_image inp orderR).y / inp.THREAD_COUNT / STEP ≤
      (working_image inp orderR).y / STEP :=
    Nat.div_le_div_right (mul_div_le_of_le (t + 1) _ _ hN ht)
  have hcode : ∀ i j, i < (working_image inp orderR).x / STEP →
      j < (working_image inp orderR).y / STEP → march_code G i j < CONTOUR_CONFIG_COUNT := by
    intro i j hi hj
    have hc := (march_code_of_binary G i j
      (hG i j (by omega) (by omega)) (hG i (j + 1) (by omega) (by omega))
      (hG (i + 1) (j + 1) (by omega) (by omega)) (hG (i + 1) j (by omega) (by omega))).2
    unfold CONTOUR_CONFIG_COUNT
    omega
  refine ⟨?_, ?_, ?_⟩
  · intro a b h
    rw [mem_march_grid_reads] at h
    simp only [h3, h4, hx, hy, run_range_fst inp orderR t, run_range_snd inp orderR t ht] at h
    obtain ⟨i, j, hi, _, hje, hc⟩ := h
    rw [hx, hy]
    omega
  · intro k n h
    rw [mem_march_template_reads] at h
    simp only [h3, h4, h5, hx, hy, run_range_fst inp orderR t, run_range_snd inp orderR t ht,
      mem_update_image_reads] at h
    obtain ⟨i, j, hi, _, hje, rfl, a, b, ha, hb, rfl⟩ := h
    have hk := hcode i j hi (by omega)
    obtain ⟨c1, c2⟩ := htemp _ hk
    rw [c1] at ha
    rw [c2] at hb
    refine ⟨hk, Int.ofNat_nonneg _, ?_⟩
    rw [c1, c2]
    have : STEP * a + b < STEP * STEP := by
      unfold STEP at ha hb ⊢
      omega
    exact Int.ofNat_lt.mpr this
  · intro k h
    rw [run_mem_march_writes inp orderR t ht G img hy hx
      (fun i j hi hj => htemp _ (hcode i j hi hj))] at h
    obtain ⟨i, j, a, b, hi, _, hje, ha, hb, rfl⟩ := h
    refine ⟨Int.ofNat_nonneg _, ?_⟩
    rw [hx, hy]
    have hr := cell_row_lt (working_image inp orderR).x STEP i a hi ha
    have hc := column_fits STEP (working_image inp orderR).y j _ hje hend
    have := index_lt (working_image inp orderR).x (working_image inp orderR).y
      (i * STEP + a) (j * STEP + b) hr (by omega)
    exact Int.ofNat_lt.mpr (by omega)

theorem march_accesses_in_bounds_witness :
    (0 : Nat) ≤ square_input.image.x / STEP ∧ (0 : Nat) ≤ square_input.image.y / STEP :=
  (march_accesses_in_bounds square_input [] checker_grid square_input.image
    (by
      intro a b _ _
      show (a + b) % 2 = 0 ∨ (a + b) % 2 = 1
      omega)
    (fun _ _ => ⟨rfl, rfl⟩) (by decide) 0 (by decide)
    (by rw [working_image_of_le square_input [] (by decide)])
    (by rw [working_image_of_le square_input [] (by decide)])).1 0 0
    ((mem_march_grid_reads _ _ _ _ _).mpr
      ⟨0, 0, by decide, by decide, by decide, Or.inl ⟨rfl, rfl⟩⟩)

/-- C18 (frame of marching). After every worker ran `march` (in any order) on the
grid left by the sampling phase, with sixteen templates of size `STEP` by `STEP`:
a pixel at row `r ≥ p * STEP` or column `c ≥ q * STEP` has the value it had in the
working image before marching, and a pixel at row `r < p * STEP` and column
`c < q * STEP` holds the pixel at row `r % STEP`, column `c % STEP` of the
template selected by the code of cell `(r / STEP, c / STEP)`. The dimensions of
the image are unchanged. (`march` returns the image only: the grid and the
templates are inputs it cannot change.) -/
theorem march_frame_effect (inp : run_input) (orderR orderS orderM : List Nat)
    (htemp : ∀ k, k < CONTOUR_CONFIG_COUNT →
      (inp.contour_map k).x = STEP ∧ (inp.contour_map k).y = STEP)
    (hN : 1 ≤ inp.THREAD_COUNT) (hS : orderS.Perm (List.range inp.THREAD_COUNT))
    (hM : orderM.Perm (List.range inp.THREAD_COUNT)) :
    (∀ r c, c < (working_image inp orderR).y →
      ((working_image inp orderR).x / STEP * STEP ≤ r ∨
        (working_image inp orderR).y / STEP * STEP ≤ c) →
      (march_phase inp orderR orderS orderM).data
          ((r * (working_image inp orderR).y + c : Nat) : Int) =
        (working_image inp orderR).data ((r * (working_image inp orderR).y + c : Nat) : Int)) ∧
    (∀ r c, r < (working_image inp orderR).x / STEP * STEP →
      c < (working_image inp orderR).y / STEP * STEP →
      (march_phase inp orderR orderS orderM).data
          ((r * (working_image inp orderR).y + c : Nat) : Int) =
        (inp.contour_map (march_code (sample_phase inp orderR orderS) (r / STEP) (c / STEP))).data
          ((STEP * (r % STEP) + c % STEP : Nat) : Int)) ∧
    (march_phase inp orderR orderS orderM).x = (working_image inp orderR).x ∧
    (march_phase inp orderR orderS orderM).y = (working_image inp orderR).y := by
  have hinS : ∀ t, t ∈ orderS → t < inp.THREAD_COUNT := fun t h => (perm_range_mem hS t).mp h
  have hallS : ∀ t, t < inp.THREAD_COUNT → t ∈ orderS := fun t h => (perm_range_mem hS t).mpr h
  have hinM : ∀ t, t ∈ orderM → t < inp.THREAD_COUNT := fun t h => (perm_range_mem hM t).mp h
  have hallM : ∀ t, t < inp.THREAD_COUNT → t ∈ orderM := fun t h => (perm_range_mem hM t).mpr h
  have hfit := run_templates_fit inp orderR orderS htemp hN hinS hallS
  refine ⟨?_, ?_, march_phase_dims inp orderR orderS orderM⟩
  · intro r c hc hout
    refine march_phase_frame inp orderR orderS orderM hinM hfit _ ?_
    intro i j a b hi hj ha hb h
    have hcol := column_fits STEP (working_image inp orderR).y j _ hj (le_refl _)
    have hu := row_col_unique (working_image inp orderR).y r c (i * STEP + a) (j * STEP + b)
      hc (by omega) (by have := Int.ofNat_inj.mp h; omega)
    have h1 : (i + 1) * STEP ≤ (working_image inp orderR).x / STEP * STEP :=
      Nat.mul_le_mul_right STEP hi
    have h2 : (j + 1) * STEP ≤ (working_image inp orderR).y / STEP * STEP :=
      Nat.mul_le_mul_right STEP hj
    rw [Nat.add_mul, Nat.one_mul] at h1 h2
    omega
  · intro r c hr hc
    have hr1 : r / STEP * STEP + r % STEP = r := by
      unfold STEP
      omega
    have hc1 : c / STEP * STEP + c % STEP = c := by
      unfold STEP
      omega
    have hi : r / STEP < (working_image inp orderR).x / STEP := by
      unfold STEP at hr ⊢
      omega
    have hj : c / STEP < (working_image inp orderR).y / STEP := by
      unfold STEP at hc ⊢
      omega
    have hw := march_phase_written inp orderR orderS orderM hN hinM hallM hfit
      (r / STEP) (c / STEP) (r % STEP) (c % STEP) hi hj
      (Nat.mod_lt _ (by decide)) (Nat.mod_lt _ (by decide))
    rw [hr1, Nat.add_assoc, hc1] at hw
    exact hw

theorem march_frame_effect_witness :
    (march_phase square_input [] [1, 0] [0, 1]).x = (working_image square_input []).x ∧
      (march_phase square_input [] [1, 0] [0, 1]).y = (working_image square_input []).y :=
  (march_frame_effect square_input [] [1, 0] [0, 1] (fun _ _ => ⟨rfl, rfl⟩) (by decide)
    (by decide) (by decide)).2.2

end PMS
